import Mathlib

/-!
Cache simulator `labs/04-cache-lab/csim.c`.

A shallow embedding of `update` and `run` from `csim.c`.

Conventions of the embedding.

* `unsigned long long` values are `Nat` below `2 ^ 64`; arithmetic on them is
  reduced modulo `2 ^ 64`.
* A C shift whose count is negative or at least the width of the operand has
  no defined result (C11 6.5.7p3); such a shift is `none` here, and `update`
  is `none` as soon as one of its shifts is.
* `int` values are `Int`. The conversion of an `unsigned long long` to `int`
  (the assignment to the `tag` field) keeps the low 32 bits in two's
  complement; the conversion of an `int` to `unsigned long long` (the
  comparison with `tag_bits`) is reduction modulo `2 ^ 64`.
* The geometry parameters `s`, `b`, `E` are taken non-negative (`Nat`): a
  negative `s` or `b` makes a shift count negative, and a negative `E` runs no
  loop iteration, exactly like `E = 0`.
* In `update`, `dispatch` and `step` the counters and `inst_index` are followed
  as mathematical integers; an `int` increment that overflows has no defined
  result, and `run` is `none` when one of them ends above `INT_MAX` (they only
  grow, so then and only then an increment overflowed).
* `cache[i][j]` is a function of the two indices. `run` is `none` when the
  allocation of lines 98-102 does not give the lines the run uses: when
  `2 ^ s` does not fit the `int S`, and when the rows have no way (`E = 0`)
  and an access is made. `malloc` and `fopen` are taken to succeed.
* What the program prints is kept as a list of output events.
-/

namespace Csim

/-- The field `cache_line` of the source: valid bit, tag, time of last use. -/
structure cache_line where
  v : Int
  tag : Int
  last : Int
deriving DecidableEq, Repr

/-- Output events, one per `printf` reached. -/
inductive Out where
  | fields (tag_bits set_index block_offset : Nat)
  | hit
  | miss
  | eviction
  | echo (operation : Char) (address : Nat) (size : Int)
  | newline
deriving DecidableEq, Repr

/-- The memory `update` works on: the lines, the three counters reached
through pointers, and the output printed so far. -/
structure Sim where
  cache : Nat → Nat → cache_line
  hit_count : Int
  miss_count : Int
  eviction_count : Int
  out : List Out

/-- Left shift of an `unsigned long long` by an `int` count. -/
def shl64 (x : Nat) (n : Int) : Option Nat :=
  if 0 ≤ n ∧ n < 64 then some ((x <<< n.toNat) % 2 ^ 64) else none

/-- Right shift of an `unsigned long long` by an `int` count. -/
def shr64 (x : Nat) (n : Int) : Option Nat :=
  if 0 ≤ n ∧ n < 64 then some (x >>> n.toNat) else none

/-- Subtraction of `unsigned long long` values. -/
def sub64 (x y : Nat) : Nat := (x + 2 ^ 64 - y % 2 ^ 64) % 2 ^ 64

/-- Conversion `unsigned long long` to `int`, as in `cache[..].tag = tag_bits`. -/
def toInt32 (n : Nat) : Int :=
  if n % 2 ^ 32 < 2 ^ 31 then ((n % 2 ^ 32 : Nat) : Int) else ((n % 2 ^ 32 : Nat) : Int) - 2 ^ 32

/-- Conversion `int` to `unsigned long long`, as in `cache[..].tag == tag_bits`. -/
def toU64 (i : Int) : Nat := (i % 2 ^ 64).toNat

/-- Lines 45-48 of `update`: the three fields `(tag_bits, set_index, block_offset)`;
the constant `one` of line 45 is written `1`. -/
def address_fields (s b : Nat) (address : Nat) : Option (Nat × Nat × Nat) :=
  (shr64 address ((s : Int) + (b : Int))).bind fun hi =>
  (shl64 1 (64 - (s : Int) - (b : Int))).bind fun mt =>
  (shr64 address (b : Int)).bind fun mid =>
  (shl64 1 (s : Int)).bind fun ms =>
  (shl64 1 (b : Int)).bind fun mb =>
  some (hi &&& sub64 mt 1, mid &&& sub64 ms 1, address &&& sub64 mb 1)

/-- A loop `for (i = i0; i < i0 + n; i++) if (p i) return i;`: the first index
at which the test succeeds. -/
def firstIdx (p : Nat → Bool) : Nat → Nat → Option Nat
  | 0, _ => none
  | n + 1, i => if p i then some i else firstIdx p n (i + 1)

/-- The eviction loop, lines 85-90, from index `i` for `n` iterations on the
pair `(MIN_TIMESTAMP, MIN_TIMESTAMP_INDEX)`. -/
def minScan (last : Nat → Int) : Nat → Nat → Int × Nat → Int × Nat
  | 0, _, acc => acc
  | n + 1, i, acc =>
      minScan last n (i + 1) (if acc.1 > last i then (last i, i) else acc)

/-- The index `MIN_TIMESTAMP_INDEX` after the eviction loop. -/
def victim (E : Nat) (row : Nat → cache_line) : Nat :=
  (minScan (fun i => (row i).last) E 0 (2147483647, 0)).2

/-- Assignment to one line `cache[i][j]`. -/
def setLine (cache : Nat → Nat → cache_line) (i j : Nat) (l : cache_line) :
    Nat → Nat → cache_line :=
  fun i' j' => if i' = i ∧ j' = j then l else cache i' j'

/-- The test of the hit loop, line 54. -/
def hitTest (row : Nat → cache_line) (tag_bits : Nat) (i : Nat) : Bool :=
  decide ((row i).v = 1 ∧ toU64 (row i).tag = tag_bits)

/-- The test of the allocation loop, line 70. -/
def freeTest (row : Nat → cache_line) (i : Nat) : Bool :=
  decide ((row i).v = 0)

/-- Lines 50-93 of `update`, once the fields are known. -/
def update_body (E : Nat) (inst_index : Int) (v : Int) (tag_bits set_index block_offset : Nat)
    (σ : Sim) : Sim :=
  let out0 := σ.out ++ [Out.fields tag_bits set_index block_offset]
  let row := σ.cache set_index
  match firstIdx (hitTest row tag_bits) E 0 with
  | some i =>
      { σ with
        cache := setLine σ.cache set_index i { row i with last := inst_index }
        hit_count := σ.hit_count + 1
        out := if v ≠ 0 then out0 ++ [Out.hit] else out0 }
  | none =>
      let out1 := if v ≠ 0 then out0 ++ [Out.miss] else out0
      match firstIdx (freeTest row) E 0 with
      | some i =>
          { σ with
            cache := setLine σ.cache set_index i
              { v := 1, tag := toInt32 tag_bits, last := inst_index }
            miss_count := σ.miss_count + 1
            out := out1 }
      | none =>
          let k := victim E row
          { σ with
            cache := setLine σ.cache set_index k
              { row k with tag := toInt32 tag_bits, last := inst_index }
            miss_count := σ.miss_count + 1
            eviction_count := σ.eviction_count + 1
            out := if v ≠ 0 then out1 ++ [Out.eviction] else out1 }

/-- The function `update` of the source. -/
def update (s b E : Nat) (inst_index : Int) (v : Int) (address : Nat) (σ : Sim) : Option Sim :=
  match address_fields s b address with
  | none => none
  | some (tag_bits, set_index, block_offset) =>
      some (update_body E inst_index v tag_bits set_index block_offset σ)

/-- One parsed trace line, what `sscanf` stores at line 128. -/
structure TraceLine where
  operation : Char
  address : Nat
  size : Int
deriving DecidableEq, Repr

/-- The state of the loop of `run`: the memory and `inst_index`. -/
structure Loop where
  sim : Sim
  inst_index : Int

/-- The `switch` of lines 133-154. -/
def dispatch (s E b : Nat) (v : Int) (inst_index : Int) (l : TraceLine) (σ : Sim) : Option Sim :=
  if l.operation = 'I' then some σ
  else if l.operation = 'M' then
    match update s b E inst_index v l.address σ with
    | none => none
    | some σ1 =>
        some { σ1 with
               out := if v ≠ 0 then σ1.out ++ [Out.hit] else σ1.out
               hit_count := σ1.hit_count + 1 }
  else if l.operation = 'L' then update s b E inst_index v l.address σ
  else if l.operation = 'S' then update s b E inst_index v l.address σ
  else some σ

/-- One iteration of the loop of `run`, lines 128-158. -/
def step (s E b : Nat) (v : Int) (st : Loop) (l : TraceLine) : Option Loop :=
  let σ0 : Sim :=
    if v ≠ 0 then { st.sim with out := st.sim.out ++ [Out.echo l.operation l.address l.size] }
    else st.sim
  match dispatch s E b v st.inst_index l σ0 with
  | none => none
  | some σ1 =>
      some { sim := if v ≠ 0 then { σ1 with out := σ1.out ++ [Out.newline] } else σ1
             inst_index := st.inst_index + 1 }

/-- The loop of `run` over the lines of the trace. -/
def runLoop (s E b : Nat) (v : Int) : List TraceLine → Loop → Option Loop
  | [], st => some st
  | l :: t, st =>
      match step s E b v st l with
      | none => none
      | some st1 => runLoop s E b v t st1

/-- The cache after the initialisation of lines 104-110. -/
def initCache : Nat → Nat → cache_line :=
  fun _ _ => { v := 0, tag := -1, last := 0 }

/-- The memory on entry to the loop of `run`: the initialised cache, the
counters as passed in, nothing printed. -/
def initSim (hit_count miss_count eviction_count : Int) : Sim :=
  { cache := initCache, hit_count := hit_count, miss_count := miss_count,
    eviction_count := eviction_count, out := [] }

/-- The three counters of a state. -/
def counters (σ : Sim) : Int × Int × Int := (σ.hit_count, σ.miss_count, σ.eviction_count)

/-- The number of cache accesses a trace line stands for: a load or a store is
one, a modify is two, anything else none. -/
def accessesOf (l : TraceLine) : Int :=
  if l.operation = 'M' then 2
  else if l.operation = 'L' then 1
  else if l.operation = 'S' then 1
  else 0

/-- The number of cache accesses of a trace. -/
def accesses : List TraceLine → Int
  | [] => 0
  | l :: t => accessesOf l + accesses t

/-- The function `run` of the source, on a parsed trace, with the values the
three counters hold on entry.

Line 98, `int S = pow(2, s)`, has a defined result only when `2 ^ s` is at
most `INT_MAX`; the `S` rows of lines 99-102 have `E` lines each, so with
`E = 0` the first call of `update` writes `cache[set_index][0]` outside its
row; lines 104-110 give the allocated lines the values of `initCache`. The
loop of lines 127-159 is `runLoop`; no increment of a counter or of
`inst_index` overflowed exactly when the final values are at most `INT_MAX`. -/
def run (s E b : Nat) (t : List TraceLine) (v : Int)
    (hit_count miss_count eviction_count : Int) : Option Sim :=
  if 2147483647 < 2 ^ s then none
  else if E = 0 ∧ accesses t ≠ 0 then none
  else
    match runLoop s E b v t
        { sim := initSim hit_count miss_count eviction_count, inst_index := 0 } with
    | none => none
    | some st =>
        if st.sim.hit_count ≤ 2147483647 ∧ st.sim.miss_count ≤ 2147483647 ∧
            st.sim.eviction_count ≤ 2147483647 ∧ st.inst_index ≤ 2147483647
        then some st.sim else none

/-- A C `int`: a value of the 32-bit two's complement range. -/
def isInt (x : Int) : Prop := -2147483648 ≤ x ∧ x ≤ 2147483647

/-- Every field of every line of the cache holds a C `int`. -/
def wellTyped (cache : Nat → Nat → cache_line) : Prop :=
  ∀ i j, isInt (cache i j).v ∧ isInt (cache i j).tag ∧ isInt (cache i j).last

/-- Invariant of the eviction loop before iteration `i`. -/
def scanInv (last : Nat → Int) (i : Nat) (acc : Int × Nat) : Prop :=
  (∀ j, j < i → acc.1 ≤ last j) ∧ (∀ j, j < acc.2 → acc.1 < last j) ∧
    ((acc.2 < i ∧ acc.1 = last acc.2) ∨ (acc.2 = 0 ∧ acc.1 = 2147483647))

/-- The trace `L 0,1`, `L 10,1` (hexadecimal), `L 0,1`. -/
def threeLoads : List TraceLine := [⟨'L', 0, 1⟩, ⟨'L', 16, 1⟩, ⟨'L', 0, 1⟩]

/-- A full 2-way set holding the tags 1 and 2, filled at the times 0 and 1. -/
def twoWays : Sim :=
  { cache := setLine (setLine initCache 0 0 { v := 1, tag := 1, last := 0 }) 0 1
      { v := 1, tag := 2, last := 1 }
    hit_count := 0, miss_count := 2, eviction_count := 0, out := [] }

/-- How the counters of `σ'` stand to those of `σ` after `n` accesses. -/
def countsAfter (σ σ' : Sim) (n : Int) : Prop :=
  σ'.hit_count + σ'.miss_count = σ.hit_count + σ.miss_count + n ∧
    σ.hit_count ≤ σ'.hit_count ∧ σ.miss_count ≤ σ'.miss_count ∧
    σ.eviction_count ≤ σ'.eviction_count ∧
    σ'.eviction_count - σ.eviction_count ≤ σ'.miss_count - σ.miss_count

/-- What one call of `update` with tag `tg` on set `si` at time `t` does to
the lines and to the miss and eviction counters: the hit exit, the exit that
fills a free way, or the eviction exit. -/
def Eff (E : Nat) (t : Int) (tg si : Nat) (σ σ' : Sim) : Prop :=
  (∃ k, k < E ∧ (σ.cache si k).v = 1 ∧
      σ'.cache = setLine σ.cache si k { σ.cache si k with last := t } ∧
      σ'.miss_count = σ.miss_count ∧ σ'.eviction_count = σ.eviction_count) ∨
  (∃ k, k < E ∧ (σ.cache si k).v = 0 ∧
      σ'.cache = setLine σ.cache si k { v := 1, tag := toInt32 tg, last := t } ∧
      σ'.miss_count = σ.miss_count + 1 ∧ σ'.eviction_count = σ.eviction_count) ∨
  ((∀ j, j < E → (σ.cache si j).v ≠ 0) ∧
      σ'.cache = setLine σ.cache si (victim E (σ.cache si))
        { σ.cache si (victim E (σ.cache si)) with tag := toInt32 tg, last := t } ∧
      σ'.miss_count = σ.miss_count + 1 ∧ σ'.eviction_count = σ.eviction_count + 1)

/-- A sequence of calls of `update`, each with its logical time and address. -/
def updateAll (s b E : Nat) (v : Int) : List (Int × Nat) → Sim → Option Sim
  | [], σ => some σ
  | c :: r, σ => (update s b E c.1 v c.2 σ).bind (updateAll s b E v r)

/-- The number of valid lines among the `2 ^ s` sets of `E` ways. -/
def validCount (s E : Nat) (cache : Nat → Nat → cache_line) : Nat :=
  ((Finset.range (2 ^ s) ×ˢ Finset.range E).filter (fun p => (cache p.1 p.2).v = 1)).card

/-- Line 47 alone: the set index of an address. -/
def set_index_field (s b : Nat) (address : Nat) : Option Nat :=
  (shr64 address (b : Int)).bind fun mid =>
  (shl64 1 (s : Int)).bind fun ms =>
  some (mid &&& sub64 ms 1)

/-- The outcome of one access. -/
inductive Outcome where
  | Hit
  | Miss
  | MissWithEviction
deriving DecidableEq, Repr

/-- The outcome a call of `update` counted, read off the counters before and
after the call. -/
def outcome (σ σ' : Sim) : Outcome :=
  if σ'.hit_count = σ.hit_count + 1 then Outcome.Hit
  else if σ'.eviction_count = σ.eviction_count + 1 then Outcome.MissWithEviction
  else Outcome.Miss

/-- The outcomes of a sequence of calls of `update`. -/
def codeOutcomes (s b E : Nat) (v : Int) : List (Int × Nat) → Sim → Option (List Outcome)
  | [], _ => some []
  | c :: r, σ =>
      (update s b E c.1 v c.2 σ).bind fun σ' =>
        (codeOutcomes s b E v r σ').map fun os => outcome σ σ' :: os

/-- Reference LRU model, from the words of the specification: one access to a
set kept as a recency-ordered list of at most `E` tags. A tag in the list
moves to the front (hit); a tag not in the list is put at the front (miss),
and the last tag is dropped when the list then exceeds `E` (miss with
eviction). -/
def refAccess (E : Nat) (tags : List Nat) (tag : Nat) : List Nat × Outcome :=
  if tag ∈ tags then (tag :: tags.erase tag, Outcome.Hit)
  else if E < (tag :: tags).length then ((tag :: tags).dropLast, Outcome.MissWithEviction)
  else (tag :: tags, Outcome.Miss)

/-- Reference LRU model, from the words of the specification: the outcomes of
a sequence of addresses, each set holding its own list of full-width tags. -/
def refOutcomes (s b E : Nat) : List Nat → (Nat → List Nat) → List Outcome
  | [], _ => []
  | a :: r, sets =>
      let tag := a / 2 ^ (s + b)
      let si := a / 2 ^ b % 2 ^ s
      let res := refAccess E (sets si) tag
      res.2 :: refOutcomes s b E r (fun i => if i = si then res.1 else sets i)

/-- Invariant of the loop of `run` at logical time `n`: every valid line was
last used before `n`, and two distinct valid ways of one set were last used at
different times. -/
def timeInv (c : Nat → Nat → cache_line) (n : Int) : Prop :=
  (∀ i j, (c i j).v = 1 → (c i j).last < n) ∧
    (∀ i j k, j ≠ k → (c i j).v = 1 → (c i k).v = 1 → (c i j).last ≠ (c i k).last)

/-- Every valid bit of the cache is 0 or 1. -/
def boolV (c : Nat → Nat → cache_line) : Prop :=
  ∀ i j, (c i j).v = 0 ∨ (c i j).v = 1

/-! ## Arithmetic of the address fields -/

theorem sub64_pow (n : Nat) (h : n < 64) : sub64 (2 ^ n % 2 ^ 64) 1 = 2 ^ n - 1 := by
  have h1 : 2 ^ n < 2 ^ 64 := Nat.pow_lt_pow_right (by norm_num) h
  have h2 : 0 < 2 ^ n := Nat.two_pow_pos _
  unfold sub64
  rw [Nat.mod_eq_of_lt h1]
  have : 2 ^ n + 2 ^ 64 - 1 % 2 ^ 64 = (2 ^ n - 1) + 2 ^ 64 := by
    have : (1 : Nat) % 2 ^ 64 = 1 := by norm_num
    omega
  rw [this, Nat.add_mod_right]
  exact Nat.mod_eq_of_lt (by omega)

theorem shl64_one (n : Int) (h0 : 0 ≤ n) (h : n < 64) :
    shl64 1 n = some (2 ^ n.toNat % 2 ^ 64) := by
  unfold shl64
  rw [if_pos ⟨h0, h⟩, Nat.one_shiftLeft]

theorem shr64_eq (x : Nat) (n : Int) (h0 : 0 ≤ n) (h : n < 64) :
    shr64 x n = some (x / 2 ^ n.toNat) := by
  unfold shr64
  rw [if_pos ⟨h0, h⟩, Nat.shiftRight_eq_div_pow]

/-- In a geometry with `0 < s + b < 64` every shift of lines 45-48 is defined
and the three fields are the quotients and remainders below. -/
theorem address_fields_eq (s b address : Nat) (h0 : 0 < s + b) (h1 : s + b < 64) :
    address_fields s b address =
      some (address / 2 ^ (s + b) % 2 ^ (64 - s - b), address / 2 ^ b % 2 ^ s,
            address % 2 ^ b) := by
  have e1 : ((s : Int) + (b : Int)).toNat = s + b := by omega
  have e2 : ((64 : Int) - (s : Int) - (b : Int)).toNat = 64 - s - b := by omega
  unfold address_fields
  rw [shr64_eq address _ (by omega) (by omega), shl64_one _ (by omega) (by omega),
    shr64_eq address _ (by omega) (by omega), shl64_one _ (by omega) (by omega),
    shl64_one _ (by omega) (by omega)]
  simp only [e1, e2, Int.toNat_natCast, Option.some_bind]
  rw [sub64_pow _ (by omega), sub64_pow _ (by omega), sub64_pow _ (by omega)]
  simp only [Nat.and_pow_two_sub_one_eq_mod]

/-- The tag mask of line 46 removes nothing from a 64-bit address. -/
theorem tag_mod_eq (s b address : Nat) (h1 : s + b ≤ 64) (ha : address < 2 ^ 64) :
    address / 2 ^ (s + b) % 2 ^ (64 - s - b) = address / 2 ^ (s + b) := by
  apply Nat.mod_eq_of_lt
  rw [Nat.div_lt_iff_lt_mul (Nat.two_pow_pos _), ← pow_add]
  have : 64 - s - b + (s + b) = 64 := by omega
  rw [this]
  exact ha

/-- The three fields of a 64-bit address, in a geometry with `0 < s + b < 64`. -/
theorem address_fields_val (s b address : Nat) (h0 : 0 < s + b) (h1 : s + b < 64)
    (ha : address < 2 ^ 64) :
    address_fields s b address =
      some (address / 2 ^ (s + b), address / 2 ^ b % 2 ^ s, address % 2 ^ b) := by
  rw [address_fields_eq s b address h0 h1, tag_mod_eq s b address (by omega) ha]

/-- With `s + b = 0` the mask of line 46 shifts by 64. -/
theorem address_fields_zero (address : Nat) : address_fields 0 0 address = none := by
  have h : shl64 1 (64 - ((0 : Nat) : Int) - ((0 : Nat) : Int)) = none := by decide
  unfold address_fields
  rw [h]
  cases shr64 address (((0 : Nat) : Int) + ((0 : Nat) : Int)) <;> rfl

/-- With `s + b ≥ 64` line 46 shifts the address by at least 64. -/
theorem address_fields_big (s b address : Nat) (h : 64 ≤ s + b) :
    address_fields s b address = none := by
  have h0 : shr64 address ((s : Int) + (b : Int)) = none := by
    unfold shr64
    rw [if_neg (by omega)]
  unfold address_fields
  rw [h0]
  rfl

/-- Reassembly of quotient and remainders. -/
theorem reassemble (s b address : Nat) :
    address / 2 ^ (s + b) * 2 ^ (s + b) + address / 2 ^ b % 2 ^ s * 2 ^ b + address % 2 ^ b
      = address := by
  have h1 := Nat.div_add_mod address (2 ^ b)
  have h2 := Nat.div_add_mod (address / 2 ^ b) (2 ^ s)
  have h3 : address / 2 ^ (s + b) = address / 2 ^ b / 2 ^ s := by
    rw [Nat.div_div_eq_div_mul, ← pow_add, Nat.add_comm]
  rw [h3, pow_add]
  generalize address / 2 ^ b = q1 at h1 h2 ⊢
  generalize address % 2 ^ b = r1 at h1 ⊢
  generalize q1 / 2 ^ s = q2 at h2 ⊢
  generalize q1 % 2 ^ s = r2 at h2 ⊢
  rw [← h1, ← h2]
  ring

/-! ## The two search loops -/

theorem firstIdx_some {p : Nat → Bool} {n i k : Nat} (h : firstIdx p n i = some k) :
    i ≤ k ∧ k < i + n ∧ p k = true ∧ ∀ j, i ≤ j → j < k → p j = false := by
  induction n generalizing i with
  | zero => simp [firstIdx] at h
  | succ n ih =>
    unfold firstIdx at h
    by_cases hp : p i = true
    · rw [if_pos hp] at h
      have hk : i = k := by simpa using h
      subst hk
      exact ⟨le_refl _, by omega, hp, fun j h1 h2 => by omega⟩
    · rw [if_neg hp] at h
      obtain ⟨h1, h2, h3, h4⟩ := ih h
      refine ⟨by omega, by omega, h3, fun j hj1 hj2 => ?_⟩
      by_cases hji : j = i
      · subst hji
        simpa using hp
      · exact h4 j (by omega) hj2

theorem firstIdx_none {p : Nat → Bool} {n i : Nat} (h : firstIdx p n i = none) :
    ∀ j, i ≤ j → j < i + n → p j = false := by
  induction n generalizing i with
  | zero => intro j h1 h2; omega
  | succ n ih =>
    unfold firstIdx at h
    by_cases hp : p i = true
    · rw [if_pos hp] at h
      simp at h
    · rw [if_neg hp] at h
      intro j hj1 hj2
      by_cases hji : j = i
      · subst hji
        simpa using hp
      · exact ih h j (by omega) (by omega)

theorem firstIdx_of_none {p : Nat → Bool} {n i : Nat}
    (h : ∀ j, i ≤ j → j < i + n → p j = false) : firstIdx p n i = none := by
  cases hr : firstIdx p n i with
  | none => rfl
  | some k =>
    obtain ⟨h1, h2, h3, _⟩ := firstIdx_some hr
    rw [h k h1 h2] at h3
    simp at h3

theorem firstIdx_of_first {p : Nat → Bool} {n i k : Nat} (h1 : i ≤ k) (h2 : k < i + n)
    (h3 : p k = true) (h4 : ∀ j, i ≤ j → j < k → p j = false) : firstIdx p n i = some k := by
  cases hr : firstIdx p n i with
  | none =>
    have := firstIdx_none hr k h1 h2
    rw [this] at h3
    simp at h3
  | some k' =>
    obtain ⟨g1, g2, g3, g4⟩ := firstIdx_some hr
    have : k' = k := by
      rcases Nat.lt_trichotomy k' k with hlt | heq | hgt
      · have := h4 k' g1 hlt
        rw [this] at g3
        simp at g3
      · exact heq
      · have := g4 k h1 hgt
        rw [this] at h3
        simp at h3
    rw [this]

theorem firstIdx_exists {p : Nat → Bool} {n i j : Nat} (h1 : i ≤ j) (h2 : j < i + n)
    (h3 : p j = true) : ∃ k, firstIdx p n i = some k := by
  cases hr : firstIdx p n i with
  | none =>
    have := firstIdx_none hr j h1 h2
    rw [this] at h3
    simp at h3
  | some k => exact ⟨k, rfl⟩

/-! ## The eviction loop -/

theorem minScan_inv (last : Nat → Int) (n i : Nat) (acc : Int × Nat)
    (h : scanInv last i acc) : scanInv last (i + n) (minScan last n i acc) := by
  induction n generalizing i acc with
  | zero => simpa [minScan] using h
  | succ n ih =>
    unfold minScan
    have e : i + (n + 1) = (i + 1) + n := by omega
    rw [e]
    apply ih
    obtain ⟨h1, h2, h3⟩ := h
    by_cases hc : acc.1 > last i
    · rw [if_pos hc]
      refine ⟨fun j hj => ?_, fun j hj => ?_, Or.inl ⟨by simp, rfl⟩⟩
      · by_cases hji : j = i
        · subst hji; exact le_refl _
        · have := h1 j (by omega)
          simp only
          omega
      · have := h1 j hj
        simp only
        omega
    · rw [if_neg hc]
      refine ⟨fun j hj => ?_, h2, ?_⟩
      · by_cases hji : j = i
        · subst hji; omega
        · exact h1 j (by omega)
      · rcases h3 with ⟨g1, g2⟩ | g
        · exact Or.inl ⟨by omega, g2⟩
        · exact Or.inr g

/-- The eviction loop selects a way of minimal `last`, and the lowest such
index, when the set has a way and every `last` is an `int`. -/
theorem victim_spec (E : Nat) (row : Nat → cache_line) (hE : 0 < E)
    (hmax : ∀ j, j < E → (row j).last ≤ 2147483647) :
    victim E row < E ∧ (∀ j, j < E → (row (victim E row)).last ≤ (row j).last) ∧
      (∀ j, j < victim E row → (row (victim E row)).last < (row j).last) := by
  have h0 : scanInv (fun i => (row i).last) 0 (2147483647, 0) :=
    ⟨fun j hj => by omega, fun j hj => by simp at hj, Or.inr ⟨rfl, rfl⟩⟩
  have h := minScan_inv (fun i => (row i).last) E 0 (2147483647, 0) h0
  rw [Nat.zero_add] at h
  unfold victim
  generalize minScan (fun i => (row i).last) E 0 (2147483647, 0) = acc at h
  obtain ⟨h1, h2, h3⟩ := h
  rcases h3 with ⟨g1, g2⟩ | ⟨g1, g2⟩
  · refine ⟨g1, fun j hj => ?_, fun j hj => ?_⟩
    · have := h1 j hj
      simp only at g2 this
      omega
    · have := h2 j hj
      simp only at g2 this
      omega
  · refine ⟨by omega, fun j hj => ?_, fun j hj => by omega⟩
    have a1 := h1 j hj
    have a2 := h1 0 hE
    have a3 := hmax j hj
    have a4 := hmax 0 hE
    simp only at a1 a2
    rw [g1]
    omega

/-! ## The conversions between `int` and `unsigned long long` -/

theorem toU64_natCast (n : Nat) (h : n < 2 ^ 64) : toU64 (n : Int) = n := by
  unfold toU64
  have : ((n : Int) % 2 ^ 64) = (n : Int) := Int.emod_eq_of_lt (by omega) (by omega)
  rw [this, Int.toNat_natCast]

theorem toU64_neg (x : Int) (h0 : -2147483648 ≤ x) (h1 : x < 0) :
    (toU64 x : Int) = x + 2 ^ 64 := by
  unfold toU64
  have e : x % 2 ^ 64 = x + 2 ^ 64 := by
    rw [← Int.add_emod_self]
    exact Int.emod_eq_of_lt (by omega) (by omega)
  rw [e, Int.toNat_of_nonneg (by omega)]

/-- The comparison of line 54 between an `int` tag and a tag of fewer than 64
bits is equality of the two numbers. -/
theorem toU64_eq_iff (x : Int) (n : Nat) (hx : isInt x) (hn : n < 2 ^ 63) :
    toU64 x = n ↔ x = (n : Int) := by
  by_cases h : 0 ≤ x
  · obtain ⟨m, rfl⟩ := Int.eq_ofNat_of_zero_le h
    have hm : m < 2 ^ 64 := by
      have := hx.2
      omega
    rw [toU64_natCast m hm]
    exact Int.natCast_inj.symm
  · have e := toU64_neg x hx.1 (by omega)
    constructor
    · intro g
      have := hx.1
      omega
    · intro g
      omega

theorem toInt32_of_lt (n : Nat) (h : n < 2 ^ 31) : toInt32 n = (n : Int) := by
  unfold toInt32
  have e : n % 2 ^ 32 = n := Nat.mod_eq_of_lt (by omega)
  rw [e, if_pos h]

theorem isInt_toInt32 (n : Nat) : isInt (toInt32 n) := by
  unfold toInt32 isInt
  have : n % 2 ^ 32 < 2 ^ 32 := Nat.mod_lt _ (by norm_num)
  split_ifs with h <;> constructor <;> omega

/-- What line 54 reads back from a tag stored at line 72 or 91 is the tag
exactly when the tag is below `2 ^ 31`. -/
theorem toU64_toInt32_iff (n : Nat) (hn : n < 2 ^ 63) : toU64 (toInt32 n) = n ↔ n < 2 ^ 31 := by
  rw [toU64_eq_iff _ _ (isInt_toInt32 n) hn]
  constructor
  · intro h
    have := (isInt_toInt32 n).2
    rw [h] at this
    omega
  · exact toInt32_of_lt n

theorem hitTest_iff (row : Nat → cache_line) (tag_bits i : Nat) :
    hitTest row tag_bits i = true ↔ (row i).v = 1 ∧ toU64 (row i).tag = tag_bits := by
  simp [hitTest]

theorem hitTest_false_iff (row : Nat → cache_line) (tag_bits i : Nat) :
    hitTest row tag_bits i = false ↔ ¬ ((row i).v = 1 ∧ toU64 (row i).tag = tag_bits) := by
  simp [hitTest]

theorem freeTest_iff (row : Nat → cache_line) (i : Nat) :
    freeTest row i = true ↔ (row i).v = 0 := by
  simp [freeTest]

theorem freeTest_false_iff (row : Nat → cache_line) (i : Nat) :
    freeTest row i = false ↔ (row i).v ≠ 0 := by
  simp [freeTest]

/-! ## The three exits of `update` -/

theorem update_body_hit {E : Nat} (t v : Int) {tg si : Nat} (bo : Nat) {σ : Sim} {i : Nat}
    (h : firstIdx (hitTest (σ.cache si) tg) E 0 = some i) :
    (update_body E t v tg si bo σ).cache
        = setLine σ.cache si i { σ.cache si i with last := t } ∧
      (update_body E t v tg si bo σ).hit_count = σ.hit_count + 1 ∧
      (update_body E t v tg si bo σ).miss_count = σ.miss_count ∧
      (update_body E t v tg si bo σ).eviction_count = σ.eviction_count := by
  refine ⟨?_, ?_, ?_, ?_⟩ <;> simp only [update_body, h]

theorem update_body_fill {E : Nat} (t v : Int) {tg si : Nat} (bo : Nat) {σ : Sim} {i : Nat}
    (h : firstIdx (hitTest (σ.cache si) tg) E 0 = none)
    (hf : firstIdx (freeTest (σ.cache si)) E 0 = some i) :
    (update_body E t v tg si bo σ).cache
        = setLine σ.cache si i { v := 1, tag := toInt32 tg, last := t } ∧
      (update_body E t v tg si bo σ).hit_count = σ.hit_count ∧
      (update_body E t v tg si bo σ).miss_count = σ.miss_count + 1 ∧
      (update_body E t v tg si bo σ).eviction_count = σ.eviction_count := by
  refine ⟨?_, ?_, ?_, ?_⟩ <;> simp only [update_body, h, hf]

theorem update_body_evict {E : Nat} (t v : Int) {tg si : Nat} (bo : Nat) {σ : Sim}
    (h : firstIdx (hitTest (σ.cache si) tg) E 0 = none)
    (hf : firstIdx (freeTest (σ.cache si)) E 0 = none) :
    (update_body E t v tg si bo σ).cache
        = setLine σ.cache si (victim E (σ.cache si))
            { σ.cache si (victim E (σ.cache si)) with tag := toInt32 tg, last := t } ∧
      (update_body E t v tg si bo σ).hit_count = σ.hit_count ∧
      (update_body E t v tg si bo σ).miss_count = σ.miss_count + 1 ∧
      (update_body E t v tg si bo σ).eviction_count = σ.eviction_count + 1 := by
  refine ⟨?_, ?_, ?_, ?_⟩ <;> simp only [update_body, h, hf]

/-- In a geometry with `0 < s + b < 64` the call returns, and its result is
the body run on the three fields. -/
theorem update_eq (s b E : Nat) (t v : Int) (address : Nat) (σ : Sim)
    (h0 : 0 < s + b) (h1 : s + b < 64) (ha : address < 2 ^ 64) :
    update s b E t v address σ =
      some (update_body E t v (address / 2 ^ (s + b)) (address / 2 ^ b % 2 ^ s)
        (address % 2 ^ b) σ) := by
  unfold update
  rw [address_fields_val s b address h0 h1 ha]

theorem tag_lt (s b address : Nat) (h0 : 0 < s + b) (ha : address < 2 ^ 64) :
    address / 2 ^ (s + b) < 2 ^ 63 := by
  rw [Nat.div_lt_iff_lt_mul (Nat.two_pow_pos _)]
  have h2 : 2 ^ 1 ≤ 2 ^ (s + b) := Nat.pow_le_pow_right (by norm_num) h0
  have : (2 : Nat) ^ 63 * 2 ^ 1 = 2 ^ 64 := by norm_num
  nlinarith

theorem setLine_same (c : Nat → Nat → cache_line) (i j : Nat) (l : cache_line) :
    setLine c i j l i j = l := by
  simp [setLine]

theorem setLine_other (c : Nat → Nat → cache_line) (i j i' j' : Nat) (l : cache_line)
    (h : ¬ (i' = i ∧ j' = j)) : setLine c i j l i' j' = c i' j' := by
  simp only [setLine, if_neg h]

/-! ## Address fields (claims C1, C2) -/

/-- Inside `0 < s + b < 64` the three fields of a 64-bit address are defined,
fit their widths and reassemble to the address. -/
theorem address_fields_reassemble (s b address : Nat) (h0 : 0 < s + b) (h1 : s + b < 64)
    (ha : address < 2 ^ 64) :
    ∃ tg si bo, address_fields s b address = some (tg, si, bo) ∧
      tg * 2 ^ (s + b) + si * 2 ^ b + bo = address ∧
      tg < 2 ^ (64 - s - b) ∧ si < 2 ^ s ∧ bo < 2 ^ b ∧ (64 - s - b) + s + b = 64 := by
  refine ⟨_, _, _, address_fields_val s b address h0 h1 ha, reassemble s b address, ?_,
    Nat.mod_lt _ (Nat.two_pow_pos _), Nat.mod_lt _ (Nat.two_pow_pos _), by omega⟩
  rw [← tag_mod_eq s b address (by omega) ha]
  exact Nat.mod_lt _ (Nat.two_pow_pos _)

/-- C1: at the edge geometries `s + b = 0` and `s + b = 64` the code computes
no fields that could be reassembled: line 46 shifts by 64 there, once the
constant `one` (for `s = b = 0`) and once the address (for `s + b = 64`, here
`s = 0, b = 64` and `s = 32, b = 32`), so reassembly of the address `1` is not
available for every geometry with `s + b ≤ 64`. -/
theorem C1_no_fields_at_edge_geometries :
    address_fields 0 0 1 = none ∧ address_fields 0 64 1 = none ∧
      address_fields 32 32 1 = none := by
  exact ⟨address_fields_zero 1, address_fields_big 0 64 1 (by norm_num),
    address_fields_big 32 32 1 (by norm_num)⟩

/-- C2: for `s = b = 0` the tag of no address is computed (`one << 64` at
line 46), so it is not the whole address, and a call of `update` in that
geometry has no defined result; the same holds at `s + b = 64`. -/
theorem C2_tag_undefined_for_zero_geometry (address : Nat) (E : Nat) (t v : Int) (σ : Sim) :
    address_fields 0 0 address = none ∧ update 0 0 E t v address σ = none ∧
      address_fields 64 0 address = none := by
  refine ⟨address_fields_zero address, ?_, address_fields_big 64 0 address (by norm_num)⟩
  unfold update
  rw [address_fields_zero address]

/-! ## Tags wider than an `int` (claims C3, C5, C6, C7) -/

/-- C3: in the geometry `s = 4, b = 4, E = 1` the address `2 ^ 40` has tag
`2 ^ 32`; on the initialised cache `update` counts a miss for it, and the
same access repeated at the next logical time counts a second miss and an
eviction, not a hit. -/
theorem C3_repeated_access_misses_again :
    address_fields 4 4 (2 ^ 40) = some (2 ^ 32, 0, 0) ∧
      (update 4 4 1 0 0 (2 ^ 40) (initSim 0 0 0)).map counters = some (0, 1, 0) ∧
      ((update 4 4 1 0 0 (2 ^ 40) (initSim 0 0 0)).bind
        (update 4 4 1 1 0 (2 ^ 40))).map counters = some (0, 2, 1) := by
  decide

/-- C5: in the geometry `s = 4, b = 4, E = 2` the address `2 ^ 40 + 2 ^ 8` has
tag `2 ^ 32 + 1`; the miss on the initialised cache makes way 0 of set 0
valid with tag `1`, not with the decomposed tag. -/
theorem C5_filled_tag_is_truncated :
    address_fields 4 4 (2 ^ 40 + 2 ^ 8) = some (2 ^ 32 + 1, 0, 0) ∧
      (update 4 4 2 7 0 (2 ^ 40 + 2 ^ 8) (initSim 0 0 0)).map
          (fun r => (counters r, r.cache 0 0))
        = some ((0, 1, 0), { v := 1, tag := 1, last := 7 }) := by
  decide

/-- C6: in the geometry `s = 4, b = 4, E = 1`, after the address `0x500`
(tag 5) has filled the only way of set 0, the address `2 ^ 41` (tag `2 ^ 33`)
is a miss with eviction and the overwritten way holds tag `0`, not the new
tag. -/
theorem C6_evicting_tag_is_truncated :
    address_fields 4 4 (2 ^ 41) = some (2 ^ 33, 0, 0) ∧
      ((update 4 4 1 0 0 0x500 (initSim 0 0 0)).bind (update 4 4 1 1 0 (2 ^ 41))).map
          (fun r => (counters r, r.cache 0 0))
        = some ((0, 2, 1), { v := 1, tag := 0, last := 1 }) := by
  decide

/-- C7: the witness geometry `s = 0, E = 2, b = 0` gives no result on the
loads of 1, 2, 3; and in the geometry `s = 0, E = 2, b = 4` the three
addresses with the pairwise distinct tags `2 ^ 32 + 1`, `1`, `3`, all of set
0, give a miss, a hit and a miss without eviction, after which the two ways
hold the tags `1` and `3`. -/
theorem C7_distinct_tags_alias :
    run 0 2 0 [⟨'L', 1, 1⟩, ⟨'L', 2, 1⟩, ⟨'L', 3, 1⟩] 0 0 0 0 = none ∧
      address_fields 0 4 (2 ^ 36 + 16) = some (2 ^ 32 + 1, 0, 0) ∧
      address_fields 0 4 16 = some (1, 0, 0) ∧
      address_fields 0 4 48 = some (3, 0, 0) ∧
      (run 0 2 4 [⟨'L', 2 ^ 36 + 16, 1⟩] 0 0 0 0).map counters = some (0, 1, 0) ∧
      (run 0 2 4 [⟨'L', 2 ^ 36 + 16, 1⟩, ⟨'L', 16, 1⟩] 0 0 0 0).map counters
        = some (1, 1, 0) ∧
      (run 0 2 4 [⟨'L', 2 ^ 36 + 16, 1⟩, ⟨'L', 16, 1⟩, ⟨'L', 48, 1⟩] 0 0 0 0).map
          (fun r => (counters r, (r.cache 0 0).tag, (r.cache 0 1).tag))
        = some ((1, 2, 0), 1, 3) := by
  refine ⟨?_, by decide, by decide, by decide, by decide, by decide, by decide⟩
  rfl

/-! ## The scenario of three loads (claim C9) -/

/-- C9, as stated, fails: the run of the three loads in the geometry
`s = 0, b = 4, E = 1` does not end with the counters 0, 3, 1. -/
theorem C9_counters_not_0_3_1 :
    (run 0 1 4 threeLoads 0 0 0 0).map counters ≠ some (0, 3, 1) := by
  decide

/-- C9, amended: the run of the three loads in the geometry `s = 0, b = 4,
E = 1` ends with hits = 0, misses = 3, evictions = 2, with the verbose flag
clear or set. -/
theorem C9_counters_0_3_2 :
    (run 0 1 4 threeLoads 0 0 0 0).map counters = some (0, 3, 2) ∧
      (run 0 1 4 threeLoads 1 0 0 0).map counters = some (0, 3, 2) := by
  decide

/-! ## The hit exit (claim C4) -/

/-- When the fields are defined the geometry is inside `0 < s + b < 64` and
the fields are the quotients and remainders of the address. -/
theorem address_fields_some {s b address tg si bo : Nat}
    (hf : address_fields s b address = some (tg, si, bo)) :
    0 < s + b ∧ s + b < 64 ∧ tg = address / 2 ^ (s + b) % 2 ^ (64 - s - b) ∧
      si = address / 2 ^ b % 2 ^ s ∧ bo = address % 2 ^ b := by
  by_cases h0 : 0 < s + b
  · by_cases h1 : s + b < 64
    · rw [address_fields_eq s b address h0 h1] at hf
      simp only [Option.some.injEq, Prod.mk.injEq] at hf
      obtain ⟨e1, e2, e3⟩ := hf
      exact ⟨h0, h1, e1.symm, e2.symm, e3.symm⟩
    · rw [address_fields_big s b address (by omega)] at hf
      simp at hf
  · have hs : s = 0 := by omega
    have hb : b = 0 := by omega
    subst hs hb
    rw [address_fields_zero] at hf
    simp at hf

theorem address_fields_tag_lt {s b address tg si bo : Nat}
    (hf : address_fields s b address = some (tg, si, bo)) : tg < 2 ^ 63 := by
  obtain ⟨h0, h1, e, _, _⟩ := address_fields_some hf
  have h2 : tg < 2 ^ (64 - s - b) := by
    rw [e]
    exact Nat.mod_lt _ (Nat.two_pow_pos _)
  have h3 : 2 ^ (64 - s - b) ≤ 2 ^ 63 := Nat.pow_le_pow_right (by norm_num) (by omega)
  omega

theorem update_of_fields {s b address tg si bo : Nat}
    (hf : address_fields s b address = some (tg, si, bo)) (E : Nat) (t v : Int) (σ : Sim) :
    update s b E t v address σ = some (update_body E t v tg si bo σ) := by
  unfold update
  rw [hf]

/-- On a well-typed line the test of line 54 is: valid, and the stored tag is
the number `tag_bits`. -/
theorem hitTest_eq_iff (row : Nat → cache_line) (tg i : Nat) (hx : isInt (row i).tag)
    (hn : tg < 2 ^ 63) :
    hitTest row tg i = true ↔ (row i).v = 1 ∧ (row i).tag = (tg : Int) := by
  rw [hitTest_iff, toU64_eq_iff _ _ hx hn]

theorem wellTyped_initCache : wellTyped initCache := by
  intro i j
  simp only [initCache, isInt]
  omega

theorem wellTyped_setLine (c : Nat → Nat → cache_line) (i j : Nat) (l : cache_line)
    (hc : wellTyped c) (hl : isInt l.v ∧ isInt l.tag ∧ isInt l.last) :
    wellTyped (setLine c i j l) := by
  intro i' j'
  unfold setLine
  split_ifs
  · exact hl
  · exact hc i' j'

/-- C8: in a geometry with `E ≥ 2`, on a well-typed state whose set `si` is
full, an access with tag `tg` present in the set, made at a time `t` later than
every `last` of the set, is a hit on some way `k`; a following access to the
same set, at a later time, with a tag `tg'` held by no way, is a miss with
eviction that overwrites a way `w` different from `k`, so the way holding
`tg` is kept as the hit left it. -/
theorem C8_hit_way_not_evicted (s b E : Nat) (t t' v : Int) (a a' : Nat) (σ : Sim)
    (tg tg' si bo bo' : Nat)
    (hf : address_fields s b a = some (tg, si, bo))
    (hf' : address_fields s b a' = some (tg', si, bo'))
    (hE : 2 ≤ E) (hty : wellTyped σ.cache)
    (hfull : ∀ j, j < E → (σ.cache si j).v = 1)
    (hT : ∃ j, j < E ∧ (σ.cache si j).tag = (tg : Int))
    (hlast : ∀ j, j < E → (σ.cache si j).last < t)
    (ht : isInt t) (_htt : t < t')
    (hmiss : ∀ j, j < E → (σ.cache si j).tag ≠ (tg' : Int)) :
    ∃ σ1 σ2 k w, update s b E t v a σ = some σ1 ∧ update s b E t' v a' σ1 = some σ2 ∧
      σ1.hit_count = σ.hit_count + 1 ∧ σ1.miss_count = σ.miss_count ∧
      σ1.eviction_count = σ.eviction_count ∧
      σ2.hit_count = σ1.hit_count ∧ σ2.miss_count = σ1.miss_count + 1 ∧
      σ2.eviction_count = σ1.eviction_count + 1 ∧
      k < E ∧ w < E ∧ w ≠ k ∧ (σ.cache si k).tag = (tg : Int) ∧
      σ1.cache = setLine σ.cache si k { σ.cache si k with last := t } ∧
      σ2.cache = setLine σ1.cache si w
        { σ1.cache si w with tag := toInt32 tg', last := t' } ∧
      σ2.cache si k = { σ.cache si k with last := t } := by
  have hn := address_fields_tag_lt hf
  have hn' := address_fields_tag_lt hf'
  obtain ⟨j0, hj0, hj0t⟩ := hT
  have hp0 : hitTest (σ.cache si) tg j0 = true :=
    (hitTest_eq_iff _ _ _ (hty si j0).2.1 hn).2 ⟨hfull j0 hj0, hj0t⟩
  obtain ⟨k, hk⟩ := firstIdx_exists (Nat.zero_le _) (by omega : j0 < 0 + E) hp0
  obtain ⟨_, hkE, hkp, _⟩ := firstIdx_some hk
  have hkE : k < E := by omega
  have hkt := ((hitTest_eq_iff _ _ _ (hty si k).2.1 hn).1 hkp).2
  obtain ⟨hc1, hh1, hm1, he1⟩ := update_body_hit t v bo hk
  -- the row of the set after the hit
  have hrow : ∀ j, (update_body E t v tg si bo σ).cache si j =
      if j = k then { σ.cache si k with last := t } else σ.cache si j := by
    intro j
    rw [hc1]
    unfold setLine
    by_cases hjk : j = k
    · rw [if_pos ⟨rfl, hjk⟩, if_pos hjk]
    · rw [if_neg (fun h => hjk h.2), if_neg hjk]
  have hrowv : ∀ j, ((update_body E t v tg si bo σ).cache si j).v = (σ.cache si j).v := by
    intro j
    rw [hrow]
    split_ifs with h
    · rw [h]
    · rfl
  have hrowt : ∀ j, ((update_body E t v tg si bo σ).cache si j).tag = (σ.cache si j).tag := by
    intro j
    rw [hrow]
    split_ifs with h
    · rw [h]
    · rfl
  have hnohit : firstIdx (hitTest ((update_body E t v tg si bo σ).cache si) tg') E 0 = none := by
    apply firstIdx_of_none
    intro j _ hj
    rw [hitTest_false_iff]
    rintro ⟨_, h2⟩
    rw [hrowt j, toU64_eq_iff _ _ (hty si j).2.1 hn'] at h2
    exact hmiss j (by omega) h2
  have hnofree : firstIdx (freeTest ((update_body E t v tg si bo σ).cache si)) E 0 = none := by
    apply firstIdx_of_none
    intro j _ hj
    rw [freeTest_false_iff, hrowv j, hfull j (by omega)]
    norm_num
  obtain ⟨hc2, hh2, hm2, he2⟩ :=
    update_body_evict t' v bo' hnohit hnofree
  have hmax : ∀ j, j < E → ((update_body E t v tg si bo σ).cache si j).last ≤ 2147483647 := by
    intro j hj
    rw [hrow]
    split_ifs
    · exact ht.2
    · have := hlast j hj
      have := ht.2
      omega
  obtain ⟨hw, hwmin, _⟩ := victim_spec E _ (by omega) hmax
  have hwk : victim E ((update_body E t v tg si bo σ).cache si) ≠ k := by
    intro hEq
    -- another way of the set, used before `t`
    obtain ⟨j1, hj1, hj1k⟩ : ∃ j1, j1 < E ∧ j1 ≠ k := by
      by_cases h : k = 0
      · exact ⟨1, by omega, by omega⟩
      · exact ⟨0, by omega, fun h' => h h'.symm⟩
    have h1 := hwmin j1 hj1
    rw [hEq, hrow k, if_pos rfl, hrow j1, if_neg hj1k] at h1
    have h2 := hlast j1 hj1
    simp only at h1
    omega
  refine ⟨_, _, k, _, update_of_fields hf E t v σ, update_of_fields hf' E t' v _,
    hh1, hm1, he1, hh2, hm2, he2, hkE, hw, hwk, hkt, hc1, hc2, ?_⟩
  rw [hc2, setLine_other _ _ _ _ _ _ (fun h => hwk h.2.symm), hrow k, if_pos rfl]

set_option maxRecDepth 4000 in
theorem C8_hit_way_not_evicted_witness :
    (∃ σ1 σ2 k w, update 0 4 2 2 0 16 twoWays = some σ1 ∧ update 0 4 2 3 0 48 σ1 = some σ2 ∧
      σ1.hit_count = twoWays.hit_count + 1 ∧ σ1.miss_count = twoWays.miss_count ∧
      σ1.eviction_count = twoWays.eviction_count ∧
      σ2.hit_count = σ1.hit_count ∧ σ2.miss_count = σ1.miss_count + 1 ∧
      σ2.eviction_count = σ1.eviction_count + 1 ∧
      k < 2 ∧ w < 2 ∧ w ≠ k ∧ (twoWays.cache 0 k).tag = ((1 : Nat) : Int) ∧
      σ1.cache = setLine twoWays.cache 0 k { twoWays.cache 0 k with last := 2 } ∧
      σ2.cache = setLine σ1.cache 0 w
        { σ1.cache 0 w with tag := toInt32 3, last := 3 } ∧
      σ2.cache 0 k = { twoWays.cache 0 k with last := 2 }) ∧
    (run 0 2 4 [⟨'L', 16, 1⟩, ⟨'L', 32, 1⟩, ⟨'L', 16, 1⟩, ⟨'L', 48, 1⟩] 0 0 0 0).map
        (fun r => (counters r, r.cache 0 0, r.cache 0 1))
      = some ((1, 3, 1), { v := 1, tag := 1, last := 2 }, { v := 1, tag := 3, last := 3 }) :=
  ⟨C8_hit_way_not_evicted 0 4 2 2 3 0 16 48 twoWays 1 3 0 0 0 (by decide) (by decide)
    (by decide)
    (wellTyped_setLine _ _ _ _
      (wellTyped_setLine _ _ _ _ wellTyped_initCache (by simp only [isInt]; omega))
      (by simp only [isInt]; omega))
    (by decide) ⟨0, by decide, by decide⟩ (by decide) (by simp only [isInt]; omega)
    (by decide) (by decide), by decide⟩

/-! ## The counters along a run (claim C10) -/

/-- Every call of `update` counts one hit, or one miss, or one miss and one
eviction. -/
theorem update_body_counts (E : Nat) (t v : Int) (tg si bo : Nat) (σ : Sim) :
    ((update_body E t v tg si bo σ).hit_count = σ.hit_count + 1 ∧
      (update_body E t v tg si bo σ).miss_count = σ.miss_count ∧
      (update_body E t v tg si bo σ).eviction_count = σ.eviction_count) ∨
    ((update_body E t v tg si bo σ).hit_count = σ.hit_count ∧
      (update_body E t v tg si bo σ).miss_count = σ.miss_count + 1 ∧
      (update_body E t v tg si bo σ).eviction_count = σ.eviction_count) ∨
    ((update_body E t v tg si bo σ).hit_count = σ.hit_count ∧
      (update_body E t v tg si bo σ).miss_count = σ.miss_count + 1 ∧
      (update_body E t v tg si bo σ).eviction_count = σ.eviction_count + 1) := by
  cases hfi : firstIdx (hitTest (σ.cache si) tg) E 0 with
  | some k => exact Or.inl (update_body_hit t v bo hfi).2
  | none =>
    cases hff : firstIdx (freeTest (σ.cache si)) E 0 with
    | some i => exact Or.inr (Or.inl (update_body_fill t v bo hfi hff).2)
    | none => exact Or.inr (Or.inr (update_body_evict t v bo hfi hff).2)

theorem update_counts (s b E : Nat) (t v : Int) (address : Nat) (σ : Sim)
    (h0 : 0 < s + b) (h1 : s + b < 64) :
    ∃ σ', update s b E t v address σ = some σ' ∧ countsAfter σ σ' 1 := by
  refine ⟨_, update_of_fields (address_fields_eq s b address h0 h1) E t v σ, ?_⟩
  unfold countsAfter
  rcases update_body_counts E t v (address / 2 ^ (s + b) % 2 ^ (64 - s - b))
    (address / 2 ^ b % 2 ^ s) (address % 2 ^ b) σ with ⟨a, b', c⟩ | ⟨a, b', c⟩ | ⟨a, b', c⟩ <;>
  · rw [a, b', c]
    omega

theorem dispatch_counts (s E b : Nat) (v t : Int) (l : TraceLine) (σ : Sim)
    (h0 : 0 < s + b) (h1 : s + b < 64) :
    ∃ σ', dispatch s E b v t l σ = some σ' ∧ countsAfter σ σ' (accessesOf l) := by
  unfold dispatch
  by_cases hI : l.operation = 'I'
  · have ha : accessesOf l = 0 := by
      unfold accessesOf
      rw [hI]
      decide
    rw [if_pos hI, ha]
    refine ⟨σ, rfl, ?_⟩
    simp only [countsAfter]
    omega
  · rw [if_neg hI]
    obtain ⟨σ1, hu, hc⟩ := update_counts s b E t v l.address σ h0 h1
    by_cases hM : l.operation = 'M'
    · have ha : accessesOf l = 2 := by
        unfold accessesOf
        rw [if_pos hM]
      rw [if_pos hM, hu, ha]
      refine ⟨_, rfl, ?_⟩
      unfold countsAfter at hc ⊢
      simp only
      omega
    · rw [if_neg hM]
      by_cases hL : l.operation = 'L'
      · have ha : accessesOf l = 1 := by
          unfold accessesOf
          rw [if_neg hM, if_pos hL]
        rw [if_pos hL, ha]
        exact ⟨σ1, hu, hc⟩
      · rw [if_neg hL]
        by_cases hS : l.operation = 'S'
        · have ha : accessesOf l = 1 := by
            unfold accessesOf
            rw [if_neg hM, if_neg hL, if_pos hS]
          rw [if_pos hS, ha]
          exact ⟨σ1, hu, hc⟩
        · have ha : accessesOf l = 0 := by
            unfold accessesOf
            rw [if_neg hM, if_neg hL, if_neg hS]
          rw [if_neg hS, ha]
          refine ⟨σ, rfl, ?_⟩
          simp only [countsAfter]
          omega

theorem step_counts (s E b : Nat) (v : Int) (st : Loop) (l : TraceLine)
    (h0 : 0 < s + b) (h1 : s + b < 64) :
    ∃ st', step s E b v st l = some st' ∧ countsAfter st.sim st'.sim (accessesOf l) ∧
      st'.inst_index = st.inst_index + 1 := by
  unfold step
  simp only
  generalize hσ0 : (if v ≠ 0 then
    { st.sim with out := st.sim.out ++ [Out.echo l.operation l.address l.size] }
    else st.sim) = σ0
  have e0 : countsAfter st.sim σ0 0 := by
    rw [← hσ0]
    unfold countsAfter
    split_ifs <;> simp
  obtain ⟨σ1, hd, hc⟩ := dispatch_counts s E b v st.inst_index l σ0 h0 h1
  rw [hd]
  refine ⟨_, rfl, ?_, rfl⟩
  unfold countsAfter at e0 hc ⊢
  simp only
  split_ifs <;> (try simp only) <;> omega

theorem runLoop_counts (s E b : Nat) (v : Int) (t : List TraceLine) (st : Loop)
    (h0 : 0 < s + b) (h1 : s + b < 64) :
    ∃ st', runLoop s E b v t st = some st' ∧ countsAfter st.sim st'.sim (accesses t) := by
  induction t generalizing st with
  | nil =>
    refine ⟨st, rfl, ?_⟩
    simp only [countsAfter, accesses]
    omega
  | cons l t ih =>
    obtain ⟨st1, hs, hc1, _⟩ := step_counts s E b v st l h0 h1
    obtain ⟨st2, hr, hc2⟩ := ih st1
    refine ⟨st2, ?_, ?_⟩
    · unfold runLoop
      rw [hs]
      exact hr
    · unfold countsAfter at hc1 hc2 ⊢
      unfold accesses
      omega

theorem runLoop_append (s E b : Nat) (v : Int) (t : List TraceLine) (l : TraceLine)
    (st : Loop) :
    runLoop s E b v (t ++ [l]) st = (runLoop s E b v t st).bind (fun st' => step s E b v st' l) := by
  induction t generalizing st with
  | nil =>
    simp only [List.nil_append, runLoop, Option.some_bind]
    cases step s E b v st l <;> rfl
  | cons x t ih =>
    simp only [List.cons_append, runLoop]
    cases step s E b v st x with
    | none => rfl
    | some st1 => exact ih st1

/-- C10, as stated, fails: the run of the three loads in the geometry `s = 0,
b = 4, E = 1` dispatches 3 accesses and ends with counters of sum 5. -/
theorem C10_sum_of_counters_not_accesses :
    accesses threeLoads = 3 ∧
      (run 0 1 4 threeLoads 0 0 0 0).map
        (fun r => r.hit_count + r.miss_count + r.eviction_count) = some 5 := by
  decide

/-! ## The exits of `update`, whenever it returns -/

theorem update_body_eff (E : Nat) (t v : Int) (tg si bo : Nat) (σ : Sim) :
    Eff E t tg si σ (update_body E t v tg si bo σ) := by
  cases hfi : firstIdx (hitTest (σ.cache si) tg) E 0 with
  | some k =>
    obtain ⟨hc, _, hm, he⟩ := update_body_hit t v bo hfi
    obtain ⟨_, g2, g3, _⟩ := firstIdx_some hfi
    exact Or.inl ⟨k, by omega, ((hitTest_iff _ _ _).1 g3).1, hc, hm, he⟩
  | none =>
    cases hff : firstIdx (freeTest (σ.cache si)) E 0 with
    | some k =>
      obtain ⟨hc, _, hm, he⟩ := update_body_fill t v bo hfi hff
      obtain ⟨_, g2, g3, _⟩ := firstIdx_some hff
      exact Or.inr (Or.inl ⟨k, by omega, (freeTest_iff _ _).1 g3, hc, hm, he⟩)
    | none =>
      obtain ⟨hc, _, hm, he⟩ := update_body_evict t v bo hfi hff
      refine Or.inr (Or.inr ⟨fun j hj => ?_, hc, hm, he⟩)
      exact (freeTest_false_iff _ _).1 (firstIdx_none hff j (Nat.zero_le _) (by omega))

/-- A call of `update` that returns had its fields defined. -/
theorem update_some {s b E : Nat} {t v : Int} {address : Nat} {σ σ' : Sim}
    (h : update s b E t v address σ = some σ') :
    ∃ tg si bo, address_fields s b address = some (tg, si, bo) ∧
      σ' = update_body E t v tg si bo σ := by
  unfold update at h
  cases hf : address_fields s b address with
  | none =>
    rw [hf] at h
    simp at h
  | some f =>
    obtain ⟨tg, si, bo⟩ := f
    rw [hf] at h
    simp only [Option.some.injEq] at h
    exact ⟨tg, si, bo, rfl, h.symm⟩

theorem update_counts_of_some {s b E : Nat} {t v : Int} {address : Nat} {σ σ' : Sim}
    (h : update s b E t v address σ = some σ') : countsAfter σ σ' 1 := by
  obtain ⟨tg, si, bo, _, rfl⟩ := update_some h
  unfold countsAfter
  rcases update_body_counts E t v tg si bo σ with ⟨a, b', c⟩ | ⟨a, b', c⟩ | ⟨a, b', c⟩ <;>
  · rw [a, b', c]
    omega

/-- What a trace line does when its dispatch returns: nothing to the lines and
counters, or one call of `update`, followed for a modify by one more hit. -/
theorem dispatch_some {s E b : Nat} {v t : Int} {l : TraceLine} {σ σ' : Sim}
    (h : dispatch s E b v t l σ = some σ') :
    (accessesOf l = 0 ∧ σ' = σ) ∨
    (accessesOf l = 1 ∧ update s b E t v l.address σ = some σ') ∨
    (accessesOf l = 2 ∧ ∃ σ1, update s b E t v l.address σ = some σ1 ∧
      σ'.cache = σ1.cache ∧ σ'.hit_count = σ1.hit_count + 1 ∧
      σ'.miss_count = σ1.miss_count ∧ σ'.eviction_count = σ1.eviction_count) := by
  unfold dispatch at h
  by_cases hI : l.operation = 'I'
  · have ha : accessesOf l = 0 := by
      unfold accessesOf
      rw [hI]
      decide
    rw [if_pos hI] at h
    simp only [Option.some.injEq] at h
    exact Or.inl ⟨ha, h.symm⟩
  · rw [if_neg hI] at h
    by_cases hM : l.operation = 'M'
    · have ha : accessesOf l = 2 := by
        unfold accessesOf
        rw [if_pos hM]
      rw [if_pos hM] at h
      cases hu : update s b E t v l.address σ with
      | none =>
        rw [hu] at h
        simp at h
      | some σ1 =>
        rw [hu] at h
        simp only [Option.some.injEq] at h
        subst h
        exact Or.inr (Or.inr ⟨ha, σ1, rfl, rfl, rfl, rfl, rfl⟩)
    · rw [if_neg hM] at h
      by_cases hL : l.operation = 'L'
      · have ha : accessesOf l = 1 := by
          unfold accessesOf
          rw [if_neg hM, if_pos hL]
        rw [if_pos hL] at h
        exact Or.inr (Or.inl ⟨ha, h⟩)
      · rw [if_neg hL] at h
        by_cases hS : l.operation = 'S'
        · have ha : accessesOf l = 1 := by
            unfold accessesOf
            rw [if_neg hM, if_neg hL, if_pos hS]
          rw [if_pos hS] at h
          exact Or.inr (Or.inl ⟨ha, h⟩)
        · have ha : accessesOf l = 0 := by
            unfold accessesOf
            rw [if_neg hM, if_neg hL, if_neg hS]
          rw [if_neg hS] at h
          simp only [Option.some.injEq] at h
          exact Or.inl ⟨ha, h.symm⟩

/-- The loop body hands `dispatch` the memory it got, up to the output, and
keeps what `dispatch` returns, up to the output. -/
theorem step_some {s E b : Nat} {v : Int} {st st' : Loop} {l : TraceLine}
    (h : step s E b v st l = some st') :
    st'.inst_index = st.inst_index + 1 ∧
    ∃ σ0 σ1, dispatch s E b v st.inst_index l σ0 = some σ1 ∧
      σ0.cache = st.sim.cache ∧ σ0.hit_count = st.sim.hit_count ∧
      σ0.miss_count = st.sim.miss_count ∧ σ0.eviction_count = st.sim.eviction_count ∧
      st'.sim.cache = σ1.cache ∧ st'.sim.hit_count = σ1.hit_count ∧
      st'.sim.miss_count = σ1.miss_count ∧ st'.sim.eviction_count = σ1.eviction_count := by
  unfold step at h
  simp only at h
  generalize hσ0 : (if v ≠ 0 then
    { st.sim with out := st.sim.out ++ [Out.echo l.operation l.address l.size] }
    else st.sim) = σ0 at h
  cases hd : dispatch s E b v st.inst_index l σ0 with
  | none =>
    rw [hd] at h
    simp at h
  | some σ1 =>
    rw [hd] at h
    simp only [Option.some.injEq] at h
    subst h
    refine ⟨rfl, σ0, σ1, hd, ?_, ?_, ?_, ?_, ?_, ?_, ?_, ?_⟩
    all_goals first
      | (rw [← hσ0]; split_ifs <;> rfl)
      | (simp only; split_ifs <;> rfl)

theorem step_counts_of_some {s E b : Nat} {v : Int} {st st' : Loop} {l : TraceLine}
    (h : step s E b v st l = some st') : countsAfter st.sim st'.sim (accessesOf l) := by
  obtain ⟨_, σ0, σ1, hd, _, a2, a3, a4, _, b2, b3, b4⟩ := step_some h
  unfold countsAfter
  rw [b2, b3, b4, ← a2, ← a3, ← a4]
  rcases dispatch_some hd with ⟨ha, rfl⟩ | ⟨ha, hu⟩ | ⟨ha, σ2, hu, _, c2, c3, c4⟩
  · rw [ha]
    omega
  · have := update_counts_of_some hu
    unfold countsAfter at this
    rw [ha]
    omega
  · have := update_counts_of_some hu
    unfold countsAfter at this
    rw [ha, c2, c3, c4]
    omega

theorem runLoop_counts_of_some {s E b : Nat} {v : Int} (t : List TraceLine) {st st' : Loop}
    (h : runLoop s E b v t st = some st') : countsAfter st.sim st'.sim (accesses t) := by
  induction t generalizing st with
  | nil =>
    unfold runLoop at h
    simp only [Option.some.injEq] at h
    subst h
    simp only [countsAfter, accesses]
    omega
  | cons l t ih =>
    unfold runLoop at h
    cases hs : step s E b v st l with
    | none =>
      rw [hs] at h
      simp at h
    | some st1 =>
      rw [hs] at h
      have h1 := step_counts_of_some hs
      have h2 := ih h
      unfold countsAfter at h1 h2 ⊢
      unfold accesses
      omega

theorem accessesOf_bounds (l : TraceLine) : 0 ≤ accessesOf l ∧ accessesOf l ≤ 2 := by
  unfold accessesOf
  split_ifs <;> omega

theorem accesses_bounds (t : List TraceLine) :
    0 ≤ accesses t ∧ accesses t ≤ 2 * (t.length : Int) := by
  induction t with
  | nil => simp [accesses]
  | cons l t ih =>
    have := accessesOf_bounds l
    simp only [accesses, List.length_cons, Nat.cast_add, Nat.cast_one]
    omega

theorem accesses_append (t : List TraceLine) (l : TraceLine) :
    accesses (t ++ [l]) = accesses t + accessesOf l := by
  induction t with
  | nil => simp [accesses]
  | cons x t ih =>
    show accessesOf x + accesses (t ++ [l]) = accessesOf x + accesses t + accessesOf l
    rw [ih]
    omega

theorem runLoop_inst_index {s E b : Nat} {v : Int} (t : List TraceLine) {st st' : Loop}
    (h : runLoop s E b v t st = some st') :
    st'.inst_index = st.inst_index + (t.length : Int) := by
  induction t generalizing st with
  | nil =>
    unfold runLoop at h
    simp only [Option.some.injEq] at h
    subst h
    simp
  | cons l t ih =>
    unfold runLoop at h
    cases hs : step s E b v st l with
    | none =>
      rw [hs] at h
      simp at h
    | some st1 =>
      rw [hs] at h
      rw [ih h, (step_some hs).1]
      simp only [List.length_cons, Nat.cast_add, Nat.cast_one]
      omega

/-- What `run` returns is the memory the loop ends with, in a geometry whose
sets were allocated, with counters and logical time that fit an `int`. -/
theorem run_some {s E b : Nat} {t : List TraceLine} {v h m e : Int} {r : Sim}
    (hr : run s E b t v h m e = some r) :
    2 ^ s ≤ 2147483647 ∧ (E = 0 → accesses t = 0) ∧
    ∃ st, runLoop s E b v t { sim := initSim h m e, inst_index := 0 } = some st ∧
      st.sim = r ∧ st.sim.hit_count ≤ 2147483647 ∧ st.sim.miss_count ≤ 2147483647 ∧
      st.sim.eviction_count ≤ 2147483647 ∧ st.inst_index ≤ 2147483647 := by
  unfold run at hr
  by_cases h1 : 2147483647 < 2 ^ s
  · rw [if_pos h1] at hr
    simp at hr
  · rw [if_neg h1] at hr
    by_cases h2 : E = 0 ∧ accesses t ≠ 0
    · rw [if_pos h2] at hr
      simp at hr
    · rw [if_neg h2] at hr
      cases hl : runLoop s E b v t { sim := initSim h m e, inst_index := 0 } with
      | none =>
        rw [hl] at hr
        simp at hr
      | some st =>
        rw [hl] at hr
        simp only at hr
        by_cases h3 : st.sim.hit_count ≤ 2147483647 ∧ st.sim.miss_count ≤ 2147483647 ∧
            st.sim.eviction_count ≤ 2147483647 ∧ st.inst_index ≤ 2147483647
        · rw [if_pos h3] at hr
          simp only [Option.some.injEq] at hr
          refine ⟨by omega, fun hE => ?_, st, rfl, hr, h3⟩
          by_contra hne
          exact h2 ⟨hE, hne⟩
        · rw [if_neg h3] at hr
          simp at hr

/-- The converse of `run_some`. -/
theorem run_of_loop {s E b : Nat} {t : List TraceLine} {v h m e : Int} {st : Loop}
    (h1 : 2 ^ s ≤ 2147483647) (h2 : E = 0 → accesses t = 0)
    (hl : runLoop s E b v t { sim := initSim h m e, inst_index := 0 } = some st)
    (h3 : st.sim.hit_count ≤ 2147483647 ∧ st.sim.miss_count ≤ 2147483647 ∧
      st.sim.eviction_count ≤ 2147483647 ∧ st.inst_index ≤ 2147483647) :
    run s E b t v h m e = some st.sim := by
  unfold run
  rw [if_neg (by omega), if_neg (fun hh => hh.2 (h2 hh.1)), hl]
  simp only
  rw [if_pos h3]

/-- From zero counters the run returns in every geometry with `s ≤ 30`,
`E ≥ 1` and `0 < s + b < 64`, on every trace of fewer than `2 ^ 30` lines. -/
theorem run_returns (s E b : Nat) (t : List TraceLine) (v : Int)
    (hs : s ≤ 30) (hE : 1 ≤ E) (h0 : 0 < s + b) (h1 : s + b < 64)
    (hlen : t.length ≤ 1073741823) : ∃ r, run s E b t v 0 0 0 = some r := by
  obtain ⟨st, hr, hc⟩ :=
    runLoop_counts s E b v t { sim := initSim 0 0 0, inst_index := 0 } h0 h1
  have hi := runLoop_inst_index t hr
  have ha := accesses_bounds t
  have hp : 2 ^ s ≤ 2147483647 := by
    have h2 : 2 ^ s ≤ 2 ^ 30 := Nat.pow_le_pow_right (by norm_num) hs
    have h3 : (2 : Nat) ^ 30 ≤ 2147483647 := by norm_num
    exact le_trans h2 h3
  refine ⟨st.sim, run_of_loop hp (fun h => by omega) hr ?_⟩
  unfold countsAfter at hc
  simp only [initSim] at hc
  simp only at hi
  omega

/-! ## A modify is a load and one more hit (claim C11) -/

theorem update_body_verbose (E : Nat) (t v v' : Int) (tg si bo : Nat) (σ : Sim) :
    (update_body E t v tg si bo σ).cache = (update_body E t v' tg si bo σ).cache ∧
      counters (update_body E t v tg si bo σ) = counters (update_body E t v' tg si bo σ) := by
  unfold counters
  cases hfi : firstIdx (hitTest (σ.cache si) tg) E 0 with
  | some k =>
    obtain ⟨a1, a2, a3, a4⟩ := update_body_hit t v bo hfi
    obtain ⟨b1, b2, b3, b4⟩ := update_body_hit t v' bo hfi
    rw [a1, a2, a3, a4, b1, b2, b3, b4]
    exact ⟨rfl, rfl⟩
  | none =>
    cases hff : firstIdx (freeTest (σ.cache si)) E 0 with
    | some k =>
      obtain ⟨a1, a2, a3, a4⟩ := update_body_fill t v bo hfi hff
      obtain ⟨b1, b2, b3, b4⟩ := update_body_fill t v' bo hfi hff
      rw [a1, a2, a3, a4, b1, b2, b3, b4]
      exact ⟨rfl, rfl⟩
    | none =>
      obtain ⟨a1, a2, a3, a4⟩ := update_body_evict t v bo hfi hff
      obtain ⟨b1, b2, b3, b4⟩ := update_body_evict t v' bo hfi hff
      rw [a1, a2, a3, a4, b1, b2, b3, b4]
      exact ⟨rfl, rfl⟩

/-- C15: for every cache state, address, logical time and counters, `update`
called with `v = 0` and with `v = 1` (and with any two values of `v`) either
returns in neither call or returns in both with the same lines and the same
hits, misses and evictions; and both calls return in a geometry with
`0 < s + b < 64`. -/
theorem C15_verbose_flag_leaves_simulation_alone (s b E : Nat) (t : Int) (address : Nat)
    (σ : Sim) :
    (update s b E t 0 address σ).map (fun r => (r.cache, counters r))
        = (update s b E t 1 address σ).map (fun r => (r.cache, counters r)) ∧
    (∀ v v', (update s b E t v address σ).map (fun r => (r.cache, counters r))
        = (update s b E t v' address σ).map (fun r => (r.cache, counters r))) ∧
    (0 < s + b → s + b < 64 →
      ∃ r0 r1, update s b E t 0 address σ = some r0 ∧ update s b E t 1 address σ = some r1 ∧
        r0.cache = r1.cache ∧ counters r0 = counters r1) := by
  have key : ∀ v v', (update s b E t v address σ).map (fun r => (r.cache, counters r))
      = (update s b E t v' address σ).map (fun r => (r.cache, counters r)) := by
    intro v v'
    unfold update
    cases address_fields s b address with
    | none => rfl
    | some f =>
      obtain ⟨tg, si, bo⟩ := f
      obtain ⟨h1, h2⟩ := update_body_verbose E t v v' tg si bo σ
      simp only [Option.map_some', h1, h2]
  refine ⟨key 0 1, key, fun h0 h1 => ?_⟩
  have hf := address_fields_eq s b address h0 h1
  obtain ⟨h1, h2⟩ := update_body_verbose E t 0 1 _ _ (address % 2 ^ b) σ
  exact ⟨_, _, update_of_fields hf E t 0 σ, update_of_fields hf E t 1 σ, h1, h2⟩

theorem C15_verbose_flag_leaves_simulation_alone_witness :
    ∃ r0 r1, update 0 4 2 2 0 48 twoWays = some r0 ∧ update 0 4 2 2 1 48 twoWays = some r1 ∧
      r0.cache = r1.cache ∧ counters r0 = counters r1 ∧ r0.out ≠ r1.out := by
  obtain ⟨r0, r1, h0, h1, hc, hk⟩ :=
    (C15_verbose_flag_leaves_simulation_alone 0 4 2 2 48 twoWays).2.2 (by decide) (by decide)
  refine ⟨r0, r1, h0, h1, hc, hk, ?_⟩
  have e0 : update 0 4 2 2 0 48 twoWays = some (update_body 2 2 0 3 0 0 twoWays) :=
    update_of_fields (by decide) 2 2 0 twoWays
  have e1 : update 0 4 2 2 1 48 twoWays = some (update_body 2 2 1 3 0 0 twoWays) :=
    update_of_fields (by decide) 2 2 1 twoWays
  rw [e0] at h0
  rw [e1] at h1
  simp only [Option.some.injEq] at h0 h1
  rw [← h0, ← h1]
  decide

/-! ## Hits plus misses (claim C18) -/

/-- C18: for every geometry and every trace run from the initialised cache
with zero counters, whenever the run returns, hits + misses is the number of
accesses dispatched (a load or a store 1, a modify 2, anything else 0) and
evictions is at most misses; the run returns in every geometry with `s ≤ 30`,
`E ≥ 1` and `0 < s + b < 64` on every trace of fewer than `2 ^ 30` lines; and
every call of `update` that returns counts one hit, or one miss, or one miss
together with one eviction. -/
theorem C18_hits_plus_misses_are_the_accesses (s E b : Nat) (v : Int) (t : List TraceLine) :
    (∀ r, run s E b t v 0 0 0 = some r →
      r.hit_count + r.miss_count = accesses t ∧ 0 ≤ r.eviction_count ∧
      r.eviction_count ≤ r.miss_count) ∧
    (s ≤ 30 → 1 ≤ E → 0 < s + b → s + b < 64 → t.length ≤ 1073741823 →
      ∃ r, run s E b t v 0 0 0 = some r) ∧
    (∀ t' v' a σ σ', update s b E t' v' a σ = some σ' →
      (σ'.hit_count = σ.hit_count + 1 ∧ σ'.miss_count = σ.miss_count ∧
        σ'.eviction_count = σ.eviction_count) ∨
      (σ'.hit_count = σ.hit_count ∧ σ'.miss_count = σ.miss_count + 1 ∧
        σ'.eviction_count = σ.eviction_count) ∨
      (σ'.hit_count = σ.hit_count ∧ σ'.miss_count = σ.miss_count + 1 ∧
        σ'.eviction_count = σ.eviction_count + 1)) := by
  refine ⟨fun r hr => ?_, fun hs hE h0 h1 hlen => run_returns s E b t v hs hE h0 h1 hlen, ?_⟩
  · obtain ⟨_, _, st, hl, rfl, _⟩ := run_some hr
    have hc := runLoop_counts_of_some t hl
    unfold countsAfter at hc
    simp only [initSim] at hc
    omega
  · intro t' v' a σ σ' hu
    obtain ⟨tg, si, bo, _, rfl⟩ := update_some hu
    exact update_body_counts E t' v' tg si bo σ

theorem C18_hits_plus_misses_are_the_accesses_witness :
    ∃ r, run 0 1 4 (threeLoads ++ [⟨'M', 16, 1⟩, ⟨'I', 0, 4⟩]) 0 0 0 0 = some r ∧
      r.hit_count + r.miss_count = accesses (threeLoads ++ [⟨'M', 16, 1⟩, ⟨'I', 0, 4⟩]) ∧
      0 ≤ r.eviction_count ∧ r.eviction_count ≤ r.miss_count := by
  obtain ⟨h1, h2, _⟩ := C18_hits_plus_misses_are_the_accesses 0 1 4 0
    (threeLoads ++ [⟨'M', 16, 1⟩, ⟨'I', 0, 4⟩])
  obtain ⟨r, hr⟩ := h2 (by decide) (by decide) (by decide) (by decide) (by decide)
  exact ⟨r, hr, h1 r hr⟩

/-! ## More on tags wider than an `int` (claims C12, C13, C16) -/

/-- C12: in the geometry `s = 0, b = 4, E = 2`, the calls of `update` for the
addresses `0x10` (tag 1) and `2 ^ 36 + 16` (tag `2 ^ 32 + 1`) on the
initialised cache are two misses without eviction and leave the ways 0 and 1
of set 0 both valid and both holding tag 1. -/
theorem C12_two_valid_ways_same_tag :
    address_fields 0 4 16 = some (1, 0, 0) ∧
      address_fields 0 4 (2 ^ 36 + 16) = some (2 ^ 32 + 1, 0, 0) ∧
      (updateAll 0 4 2 0 [(0, 16), (1, 2 ^ 36 + 16)] (initSim 0 0 0)).map
          (fun r => (counters r, r.cache 0 0, r.cache 0 1))
        = some ((0, 2, 0), { v := 1, tag := 1, last := 0 }, { v := 1, tag := 1, last := 1 }) := by
  decide

/-- C13: in the geometry `s = 0, b = 4, E = 2`, for the addresses
`2 ^ 36 + 32` (tag `2 ^ 32 + 2`) and `0x20` (tag 2) accessed at the times 0 and
1 on the initialised cache, `update` counts a miss and then a hit, while the
reference LRU model on full-width tags gives two misses. -/
theorem C13_outcomes_differ_from_reference :
    codeOutcomes 0 4 2 0 [(0, 2 ^ 36 + 32), (1, 32)] (initSim 0 0 0)
        = some [Outcome.Miss, Outcome.Hit] ∧
      refOutcomes 0 4 2 [2 ^ 36 + 32, 32] (fun _ => []) = [Outcome.Miss, Outcome.Miss] := by
  decide

/-- C16: in the geometry `s = 4, b = 4, E = 2`, the address `2 ^ 44` (tag
`2 ^ 36`, set 0) accessed at time 3 on the initialised cache is a miss that
fills way 0; the same call made again at once is a second miss, not a hit,
and it changes the cache: way 1, invalid after the first call, is valid after
the second. -/
theorem C16_second_call_is_not_a_hit :
    address_fields 4 4 (2 ^ 44) = some (2 ^ 36, 0, 0) ∧
      (update 4 4 2 3 0 (2 ^ 44) (initSim 0 0 0)).map
          (fun r => (counters r, r.cache 0 0, r.cache 0 1))
        = some ((0, 1, 0), { v := 1, tag := 0, last := 3 }, { v := 0, tag := -1, last := 0 }) ∧
      ((update 4 4 2 3 0 (2 ^ 44) (initSim 0 0 0)).bind (update 4 4 2 3 0 (2 ^ 44))).map
          (fun r => (counters r, r.cache 0 0, r.cache 0 1))
        = some ((0, 2, 0), { v := 1, tag := 0, last := 3 }, { v := 1, tag := 0, last := 3 }) := by
  decide

/-! ## Distinct times of last use (claim C17) -/

theorem timeInv_mono (c : Nat → Nat → cache_line) (n : Int) (h : timeInv c n) :
    timeInv c (n + 1) := by
  refine ⟨fun i j hv => ?_, h.2⟩
  have := h.1 i j hv
  omega

/-- Writing one line with time of last use `n` keeps the invariant. -/
theorem timeInv_setLine (c : Nat → Nat → cache_line) (n : Int) (si k : Nat) (l : cache_line)
    (h : timeInv c n) (hl : l.last = n) : timeInv (setLine c si k l) (n + 1) := by
  have key : ∀ i j, (setLine c si k l i j).v = 1 →
      (i = si ∧ j = k ∧ (setLine c si k l i j).last = n) ∨
      (¬ (i = si ∧ j = k) ∧ (c i j).v = 1 ∧ (setLine c si k l i j).last = (c i j).last) := by
    intro i j hv
    by_cases hij : i = si ∧ j = k
    · left
      refine ⟨hij.1, hij.2, ?_⟩
      simp only [setLine, if_pos hij, hl]
    · right
      rw [setLine_other _ _ _ _ _ _ hij] at hv ⊢
      exact ⟨hij, hv, rfl⟩
  constructor
  · intro i j hv
    rcases key i j hv with ⟨_, _, e⟩ | ⟨_, hv', e⟩
    · rw [e]
      omega
    · rw [e]
      have := h.1 i j hv'
      omega
  · intro i j k' hjk hv1 hv2
    rcases key i j hv1 with ⟨a1, a2, e1⟩ | ⟨a1, hv1', e1⟩ <;>
    rcases key i k' hv2 with ⟨b1, b2, e2⟩ | ⟨b1, hv2', e2⟩
    · exact absurd (a2.trans b2.symm) hjk
    · rw [e1, e2]
      have := h.1 i k' hv2'
      omega
    · rw [e1, e2]
      have := h.1 i j hv1'
      omega
    · rw [e1, e2]
      exact h.2 i j k' hjk hv1' hv2'

/-- Every exit of `update` writes one line of the addressed set and gives it
the logical time of the call. -/
theorem eff_write {E : Nat} {t : Int} {tg si : Nat} {σ σ' : Sim} (h : Eff E t tg si σ σ') :
    ∃ k l, σ'.cache = setLine σ.cache si k l ∧ l.last = t := by
  rcases h with ⟨k, _, _, hc, _⟩ | ⟨k, _, _, hc, _⟩ | ⟨_, hc, _⟩
  · exact ⟨k, _, hc, rfl⟩
  · exact ⟨k, _, hc, rfl⟩
  · exact ⟨_, _, hc, rfl⟩

theorem update_write {s b E : Nat} {t v : Int} {address : Nat} {σ σ' : Sim}
    (h : update s b E t v address σ = some σ') :
    ∃ si k l, σ'.cache = setLine σ.cache si k l ∧ l.last = t := by
  obtain ⟨tg, si, bo, _, rfl⟩ := update_some h
  obtain ⟨k, l, hc, hl⟩ := eff_write (update_body_eff E t v tg si bo σ)
  exact ⟨si, k, l, hc, hl⟩

/-- One trace line leaves the lines alone or writes one line, with the
logical time of the trace line. -/
theorem step_write {s E b : Nat} {v : Int} {st st' : Loop} {l : TraceLine}
    (h : step s E b v st l = some st') :
    st'.sim.cache = st.sim.cache ∨
      ∃ si k ln, st'.sim.cache = setLine st.sim.cache si k ln ∧ ln.last = st.inst_index := by
  obtain ⟨_, σ0, σ1, hd, a1, _, _, _, b1, _, _, _⟩ := step_some h
  rcases dispatch_some hd with ⟨_, rfl⟩ | ⟨_, hu⟩ | ⟨_, σ2, hu, c1, _⟩
  · left
    rw [b1, a1]
  · right
    obtain ⟨si, k, ln, hc, hl⟩ := update_write hu
    exact ⟨si, k, ln, by rw [b1, hc, a1], hl⟩
  · right
    obtain ⟨si, k, ln, hc, hl⟩ := update_write hu
    exact ⟨si, k, ln, by rw [b1, c1, hc, a1], hl⟩

theorem step_timeInv {s E b : Nat} {v : Int} {st st' : Loop} {l : TraceLine}
    (h : step s E b v st l = some st') (hi : timeInv st.sim.cache st.inst_index) :
    timeInv st'.sim.cache st'.inst_index := by
  rw [(step_some h).1]
  rcases step_write h with e | ⟨si, k, ln, e, hl⟩
  · rw [e]
    exact timeInv_mono _ _ hi
  · rw [e]
    exact timeInv_setLine _ _ si k ln hi hl

theorem runLoop_timeInv {s E b : Nat} {v : Int} (t : List TraceLine) {st st' : Loop}
    (h : runLoop s E b v t st = some st') (hi : timeInv st.sim.cache st.inst_index) :
    timeInv st'.sim.cache st'.inst_index ∧
      st'.inst_index = st.inst_index + (t.length : Int) := by
  induction t generalizing st with
  | nil =>
    unfold runLoop at h
    simp only [Option.some.injEq] at h
    subst h
    exact ⟨hi, by simp⟩
  | cons l t ih =>
    unfold runLoop at h
    cases hs : step s E b v st l with
    | none =>
      rw [hs] at h
      simp at h
    | some st1 =>
      rw [hs] at h
      obtain ⟨h1, h2⟩ := ih h (step_timeInv hs hi)
      refine ⟨h1, ?_⟩
      rw [h2, (step_some hs).1]
      simp only [List.length_cons, Nat.cast_add, Nat.cast_one]
      omega

theorem timeInv_initCache : timeInv initCache 0 := by
  constructor
  · intro i j hv
    simp [initCache] at hv
  · intro i j k _ hv
    simp [initCache] at hv

/-- C17: in every memory `run` returns, from the initialised cache with zero
counters, with one call of `update` per load, store or modify line and the
logical time incremented once per line, any two distinct valid ways of a set
have different `last` values; hence, when `E ≥ 1`, in every set whose `E` ways
are all valid the way the eviction loop selects has a `last` strictly below
that of every other way, so the victim is unique and no tie is broken by the
index; and `run` returns in every geometry with `s ≤ 30`, `E ≥ 1` and
`0 < s + b < 64` on every trace of fewer than `2 ^ 30` lines. -/
theorem C17_valid_ways_have_distinct_last (s E b : Nat) (v : Int) (t : List TraceLine) :
    (∀ r, run s E b t v 0 0 0 = some r →
      ∀ i j k, j ≠ k → (r.cache i j).v = 1 → (r.cache i k).v = 1 →
        (r.cache i j).last ≠ (r.cache i k).last) ∧
    (∀ r, run s E b t v 0 0 0 = some r → 0 < E →
      ∀ i, (∀ j, j < E → (r.cache i j).v = 1) →
        ∀ j, j < E → j ≠ victim E (r.cache i) →
          (r.cache i (victim E (r.cache i))).last < (r.cache i j).last) ∧
    (s ≤ 30 → 1 ≤ E → 0 < s + b → s + b < 64 → t.length ≤ 1073741823 →
      ∃ r, run s E b t v 0 0 0 = some r) := by
  have key : ∀ r, run s E b t v 0 0 0 = some r →
      timeInv r.cache (t.length : Int) ∧ (t.length : Int) ≤ 2147483647 := by
    intro r hr
    obtain ⟨_, _, st, hl, rfl, _, _, _, hi⟩ := run_some hr
    obtain ⟨h1, h2⟩ := runLoop_timeInv t hl timeInv_initCache
    rw [h2] at h1 hi
    simp only [zero_add] at h1 hi
    exact ⟨h1, hi⟩
  refine ⟨fun r hr => (key r hr).1.2, ?_,
    fun hs hE h0 h1 hlen => run_returns s E b t v hs hE h0 h1 hlen⟩
  intro r hr hE i hfull j hj hne
  obtain ⟨⟨k1, k2⟩, hlen⟩ := key r hr
  have hmax : ∀ j, j < E → (r.cache i j).last ≤ 2147483647 := by
    intro j hj
    have := k1 i j (hfull j hj)
    omega
  obtain ⟨hw, hmin, _⟩ := victim_spec E (r.cache i) hE hmax
  have h1 := hmin j hj
  have h2 := k2 i j (victim E (r.cache i)) hne (hfull j hj) (hfull _ hw)
  omega

theorem C17_valid_ways_have_distinct_last_witness :
    ∃ r, run 0 2 4 [⟨'L', 16, 1⟩, ⟨'M', 32, 1⟩, ⟨'I', 0, 4⟩, ⟨'S', 16, 1⟩] 0 0 0 0 = some r ∧
      (∀ i j k, j ≠ k → (r.cache i j).v = 1 → (r.cache i k).v = 1 →
        (r.cache i j).last ≠ (r.cache i k).last) ∧
      (∀ i, (∀ j, j < 2 → (r.cache i j).v = 1) →
        ∀ j, j < 2 → j ≠ victim 2 (r.cache i) →
          (r.cache i (victim 2 (r.cache i))).last < (r.cache i j).last) := by
  obtain ⟨h1, h2, h3⟩ := C17_valid_ways_have_distinct_last 0 2 4 0
    [⟨'L', 16, 1⟩, ⟨'M', 32, 1⟩, ⟨'I', 0, 4⟩, ⟨'S', 16, 1⟩]
  obtain ⟨r, hr⟩ := h3 (by decide) (by decide) (by decide) (by decide) (by decide)
  exact ⟨r, hr, h1 r hr, h2 r hr (by decide)⟩

/-! ## Valid lines and the counters (claim C19) -/

/-- A write that keeps the valid bit of the line keeps the number of valid
lines. -/
theorem validCount_setLine_same (s E : Nat) (c : Nat → Nat → cache_line) (si k : Nat)
    (l : cache_line) (hv : l.v = (c si k).v) :
    validCount s E (setLine c si k l) = validCount s E c := by
  unfold validCount
  congr 1
  apply Finset.filter_congr
  intro p _
  by_cases hp : p.1 = si ∧ p.2 = k
  · rw [hp.1, hp.2, setLine_same, hv]
  · rw [setLine_other _ _ _ _ _ _ hp]

/-- A write that makes an invalid line of the cache valid adds one valid
line. -/
theorem validCount_setLine_fill (s E : Nat) (c : Nat → Nat → cache_line) (si k : Nat)
    (l : cache_line) (hsi : si < 2 ^ s) (hk : k < E) (h0 : (c si k).v = 0) (h1 : l.v = 1) :
    validCount s E (setLine c si k l) = validCount s E c + 1 := by
  unfold validCount
  have hmem : (si, k) ∈ Finset.range (2 ^ s) ×ˢ Finset.range E := by
    simp only [Finset.mem_product, Finset.mem_range]
    exact ⟨hsi, hk⟩
  have hnot : (si, k) ∉ (Finset.range (2 ^ s) ×ˢ Finset.range E).filter
      (fun p => (c p.1 p.2).v = 1) := by
    simp only [Finset.mem_filter, not_and]
    intro _
    rw [h0]
    norm_num
  have e : (Finset.range (2 ^ s) ×ˢ Finset.range E).filter
        (fun p => (setLine c si k l p.1 p.2).v = 1)
      = insert (si, k) ((Finset.range (2 ^ s) ×ˢ Finset.range E).filter
        (fun p => (c p.1 p.2).v = 1)) := by
    ext p
    simp only [Finset.mem_filter, Finset.mem_insert]
    by_cases hp : p.1 = si ∧ p.2 = k
    · have hp' : p = (si, k) := Prod.ext hp.1 hp.2
      subst hp'
      simp only [setLine_same, h1, hmem, true_and, true_or]
    · rw [setLine_other _ _ _ _ _ _ hp]
      have hp' : p ≠ (si, k) := fun hq => hp ⟨by rw [hq], by rw [hq]⟩
      simp only [hp', false_or]
  rw [e, Finset.card_insert_of_not_mem hnot]

theorem validCount_le (s E : Nat) (c : Nat → Nat → cache_line) :
    validCount s E c ≤ 2 ^ s * E := by
  unfold validCount
  calc ((Finset.range (2 ^ s) ×ˢ Finset.range E).filter (fun p => (c p.1 p.2).v = 1)).card
      ≤ (Finset.range (2 ^ s) ×ˢ Finset.range E).card := Finset.card_filter_le _ _
    _ = 2 ^ s * E := by rw [Finset.card_product, Finset.card_range, Finset.card_range]

theorem validCount_initCache (s E : Nat) : validCount s E initCache = 0 := by
  unfold validCount
  rw [Finset.card_eq_zero, Finset.filter_eq_empty_iff]
  intro p _
  simp [initCache]

/-- Each exit of `update` on a set below `2 ^ s` keeps misses − evictions
equal to the number of valid lines. -/
theorem eff_validCount {s E : Nat} {t : Int} {tg si : Nat} {σ σ' : Sim}
    (h : Eff E t tg si σ σ') (hsi : si < 2 ^ s)
    (hi : σ.miss_count - σ.eviction_count = (validCount s E σ.cache : Int)) :
    σ'.miss_count - σ'.eviction_count = (validCount s E σ'.cache : Int) := by
  rcases h with ⟨k, _, _, hc, hm, he⟩ | ⟨k, hk, hv, hc, hm, he⟩ | ⟨_, hc, hm, he⟩
  · have e := validCount_setLine_same s E σ.cache si k { σ.cache si k with last := t } rfl
    rw [hc, e, hm, he]
    exact hi
  · have e := validCount_setLine_fill s E σ.cache si k
      { v := 1, tag := toInt32 tg, last := t } hsi hk hv rfl
    rw [hc, e, hm, he]
    push_cast
    omega
  · have e := validCount_setLine_same s E σ.cache si (victim E (σ.cache si))
      { σ.cache si (victim E (σ.cache si)) with tag := toInt32 tg, last := t } rfl
    rw [hc, e, hm, he]
    omega

theorem updateAll_validCount {s b E : Nat} {v : Int} (calls : List (Int × Nat)) {σ σ' : Sim}
    (h : updateAll s b E v calls σ = some σ')
    (hi : σ.miss_count - σ.eviction_count = (validCount s E σ.cache : Int)) :
    σ'.miss_count - σ'.eviction_count = (validCount s E σ'.cache : Int) := by
  induction calls generalizing σ with
  | nil =>
    unfold updateAll at h
    simp only [Option.some.injEq] at h
    subst h
    exact hi
  | cons c r ih =>
    unfold updateAll at h
    cases hu : update s b E c.1 v c.2 σ with
    | none =>
      rw [hu] at h
      simp at h
    | some σ1 =>
      rw [hu, Option.some_bind] at h
      apply ih h
      obtain ⟨tg, si, bo, hf, rfl⟩ := update_some hu
      obtain ⟨_, _, _, hsi, _⟩ := address_fields_some hf
      refine eff_validCount (update_body_eff E c.1 v tg si bo σ) ?_ hi
      rw [hsi]
      exact Nat.mod_lt _ (Nat.two_pow_pos _)

theorem updateAll_returns (s b E : Nat) (v : Int) (calls : List (Int × Nat)) (σ : Sim)
    (h0 : 0 < s + b) (h1 : s + b < 64) : ∃ σ', updateAll s b E v calls σ = some σ' := by
  induction calls generalizing σ with
  | nil => exact ⟨σ, rfl⟩
  | cons c r ih =>
    obtain ⟨σ1, hu, _⟩ := update_counts s b E c.1 v c.2 σ h0 h1
    obtain ⟨σ2, h2⟩ := ih σ1
    refine ⟨σ2, ?_⟩
    unfold updateAll
    rw [hu, Option.some_bind]
    exact h2

theorem boolV_initCache : boolV initCache := by
  intro i j
  left
  rfl

theorem boolV_setLine (c : Nat → Nat → cache_line) (si k : Nat) (l : cache_line)
    (hc : boolV c) (hl : l.v = 0 ∨ l.v = 1) : boolV (setLine c si k l) := by
  intro i j
  unfold setLine
  split_ifs
  · exact hl
  · exact hc i j

theorem eff_boolV {E : Nat} {t : Int} {tg si : Nat} {σ σ' : Sim} (h : Eff E t tg si σ σ')
    (hb : boolV σ.cache) : boolV σ'.cache := by
  rcases h with ⟨k, _, _, hc, _⟩ | ⟨k, _, _, hc, _⟩ | ⟨_, hc, _⟩
  · rw [hc]
    exact boolV_setLine _ _ _ _ hb (hb si k)
  · rw [hc]
    exact boolV_setLine _ _ _ _ hb (Or.inr rfl)
  · rw [hc]
    exact boolV_setLine _ _ _ _ hb (hb si _)

theorem updateAll_boolV {s b E : Nat} {v : Int} (calls : List (Int × Nat)) {σ σ' : Sim}
    (h : updateAll s b E v calls σ = some σ') (hb : boolV σ.cache) : boolV σ'.cache := by
  induction calls generalizing σ with
  | nil =>
    unfold updateAll at h
    simp only [Option.some.injEq] at h
    subst h
    exact hb
  | cons c r ih =>
    unfold updateAll at h
    cases hu : update s b E c.1 v c.2 σ with
    | none =>
      rw [hu] at h
      simp at h
    | some σ1 =>
      rw [hu, Option.some_bind] at h
      apply ih h
      obtain ⟨tg, si, bo, _, rfl⟩ := update_some hu
      exact eff_boolV (update_body_eff E c.1 v tg si bo σ) hb

/-- C19: for every geometry and every sequence of calls of `update` made from
the initialised cache with zero counters, whenever the calls return,
misses − evictions is the number of valid lines among the `2 ^ s` sets of `E`
ways, and so at most `2 ^ s * E`; the calls return in every geometry with
`0 < s + b < 64`; and a further call of `update` that returns makes no valid
line invalid and counts an eviction only when every way of the addressed set
is valid. -/
theorem C19_misses_minus_evictions_counts_valid_lines (s b E : Nat) (v : Int)
    (calls : List (Int × Nat)) :
    (∀ σ, updateAll s b E v calls (initSim 0 0 0) = some σ →
      σ.miss_count - σ.eviction_count = (validCount s E σ.cache : Int) ∧
      σ.miss_count - σ.eviction_count ≤ ((2 ^ s * E : Nat) : Int)) ∧
    (0 < s + b → s + b < 64 →
      ∃ σ, updateAll s b E v calls (initSim 0 0 0) = some σ) ∧
    (∀ σ, updateAll s b E v calls (initSim 0 0 0) = some σ →
      ∀ t a σ', update s b E t v a σ = some σ' →
        (∀ i j, (σ.cache i j).v = 1 → (σ'.cache i j).v = 1) ∧
        (σ'.eviction_count = σ.eviction_count + 1 →
          ∃ tg si bo, address_fields s b a = some (tg, si, bo) ∧
            ∀ j, j < E → (σ.cache si j).v = 1)) := by
  refine ⟨fun σ' h => ?_, fun h0 h1 => updateAll_returns s b E v calls _ h0 h1, ?_⟩
  · have hinit : (initSim 0 0 0).miss_count - (initSim 0 0 0).eviction_count
        = (validCount s E (initSim 0 0 0).cache : Int) := by
      simp only [initSim, validCount_initCache]
      norm_num
    have e := updateAll_validCount calls h hinit
    refine ⟨e, ?_⟩
    rw [e]
    exact_mod_cast validCount_le s E σ'.cache
  · intro σ hreach t a σ' hu
    have hb : boolV σ.cache := updateAll_boolV calls hreach boolV_initCache
    obtain ⟨tg, si, bo, hf, rfl⟩ := update_some hu
    have heff := update_body_eff E t v tg si bo σ
    constructor
    · intro i j hv
      rcases heff with ⟨k, _, hk, hc, _⟩ | ⟨k, _, hk, hc, _⟩ | ⟨_, hc, _⟩ <;>
      · rw [hc]
        unfold setLine
        split_ifs with hij
        · first
            | rfl
            | (obtain ⟨e1, e2⟩ := hij
               subst e1 e2
               exact hv)
        · exact hv
    · intro he
      refine ⟨tg, si, bo, hf, ?_⟩
      rcases heff with ⟨k, _, _, _, _, he'⟩ | ⟨k, _, _, _, _, he'⟩ | ⟨hfull, _⟩
      · rw [he'] at he
        omega
      · rw [he'] at he
        omega
      · intro j hj
        rcases hb si j with h0 | h1
        · exact absurd h0 (hfull j hj)
        · exact h1

theorem C19_misses_minus_evictions_counts_valid_lines_witness :
    ∃ σ', updateAll 1 4 2 0 [(0, 16), (1, 48), (2, 80), (3, 0), (4, 16)] (initSim 0 0 0)
        = some σ' ∧
      σ'.miss_count - σ'.eviction_count = (validCount 1 2 σ'.cache : Int) ∧
      σ'.miss_count - σ'.eviction_count ≤ ((2 ^ 1 * 2 : Nat) : Int) := by
  obtain ⟨h1, h2, _⟩ := C19_misses_minus_evictions_counts_valid_lines 1 4 2 0
    [(0, 16), (1, 48), (2, 80), (3, 0), (4, 16)]
  obtain ⟨r, hr⟩ := h2 (by decide) (by decide)
  exact ⟨r, hr, h1 r hr⟩

/-! ## Indices in bounds (claim C20) -/

theorem set_index_field_eq (s b address : Nat) (hs : s < 64) (hb : b < 64) :
    set_index_field s b address = some (address / 2 ^ b % 2 ^ s) := by
  unfold set_index_field
  rw [shr64_eq address _ (by omega) (by omega), shl64_one _ (by omega) (by omega)]
  simp only [Int.toNat_natCast, Option.some_bind]
  rw [sub64_pow _ hs, Nat.and_pow_two_sub_one_eq_mod]

theorem firstIdx_congr {p q : Nat → Bool} {n i : Nat}
    (h : ∀ j, i ≤ j → j < i + n → p j = q j) : firstIdx p n i = firstIdx q n i := by
  induction n generalizing i with
  | zero => rfl
  | succ n ih =>
    unfold firstIdx
    rw [h i (le_refl _) (by omega), ih (fun j h1 h2 => h j (by omega) (by omega))]

theorem minScan_congr {f g : Nat → Int} {n i : Nat} (acc : Int × Nat)
    (h : ∀ j, i ≤ j → j < i + n → f j = g j) : minScan f n i acc = minScan g n i acc := by
  induction n generalizing i acc with
  | zero => rfl
  | succ n ih =>
    unfold minScan
    rw [h i (le_refl _) (by omega)]
    exact ih _ (fun j h1 h2 => h j (by omega) (by omega))

/-- The index the eviction loop ends with is a way of the set. -/
theorem victim_lt (E : Nat) (row : Nat → cache_line) (hE : 0 < E) : victim E row < E := by
  have h0 : scanInv (fun i => (row i).last) 0 (2147483647, 0) :=
    ⟨fun j hj => by omega, fun j hj => by simp at hj, Or.inr ⟨rfl, rfl⟩⟩
  have h := minScan_inv (fun i => (row i).last) E 0 (2147483647, 0) h0
  rw [Nat.zero_add] at h
  unfold victim
  rcases h.2.2 with ⟨g, _⟩ | ⟨g, _⟩
  · exact g
  · rw [g]
    exact hE

/-- C20: for every address and every geometry with `s ≤ 30`, `s + b < 64` and
`E ≥ 1`: the set index of line 47 is defined and below `2 ^ s`, the number of
sets allocated, which fits an `int`, and it is the set index `update` uses
whenever its fields are defined; the index at which the hit loop or the
allocation loop stops and the index the eviction loop selects are below `E`;
the three loops read only the ways below `E`, their results being the same on
two rows equal on these ways; and a call of `update` that returns changes no
line outside the `2 ^ s` sets of `E` ways. -/
theorem C20_line_indices_in_bounds (s b E : Nat) (address : Nat)
    (hs : s ≤ 30) (hsb : s + b < 64) (hE : 1 ≤ E) :
    (∃ si, set_index_field s b address = some si ∧ si < 2 ^ s ∧ 2 ^ s ≤ 2147483647 ∧
      ∀ tg si' bo, address_fields s b address = some (tg, si', bo) → si' = si) ∧
    (∀ (row : Nat → cache_line) (tg : Nat),
      (∀ i, firstIdx (hitTest row tg) E 0 = some i → i < E) ∧
      (∀ i, firstIdx (freeTest row) E 0 = some i → i < E) ∧
      victim E row < E) ∧
    (∀ (row row' : Nat → cache_line) (tg : Nat), (∀ j, j < E → row j = row' j) →
      firstIdx (hitTest row tg) E 0 = firstIdx (hitTest row' tg) E 0 ∧
      firstIdx (freeTest row) E 0 = firstIdx (freeTest row') E 0 ∧
      victim E row = victim E row') ∧
    (∀ t v σ σ', update s b E t v address σ = some σ' →
      ∀ i j, σ'.cache i j ≠ σ.cache i j → i < 2 ^ s ∧ j < E) := by
  have hlt : address / 2 ^ b % 2 ^ s < 2 ^ s := Nat.mod_lt _ (Nat.two_pow_pos _)
  refine ⟨⟨_, set_index_field_eq s b address (by omega) (by omega), hlt, ?_, ?_⟩, ?_, ?_, ?_⟩
  · have h1 : 2 ^ s ≤ 2 ^ 30 := Nat.pow_le_pow_right (by norm_num) hs
    have h2 : (2 : Nat) ^ 30 ≤ 2147483647 := by norm_num
    exact le_trans h1 h2
  · intro tg si' bo hf
    exact (address_fields_some hf).2.2.2.1
  · intro row tg
    refine ⟨fun i h => ?_, fun i h => ?_, victim_lt E row (by omega)⟩
    · have := (firstIdx_some h).2.1
      omega
    · have := (firstIdx_some h).2.1
      omega
  · intro row row' tg hrow
    refine ⟨firstIdx_congr fun j _ hj => ?_, firstIdx_congr fun j _ hj => ?_, ?_⟩
    · unfold hitTest
      rw [hrow j (by omega)]
    · unfold freeTest
      rw [hrow j (by omega)]
    · unfold victim
      rw [minScan_congr (2147483647, 0) fun j _ hj => by
        show (row j).last = (row' j).last
        rw [hrow j (by omega)]]
  · intro t v σ σ' hu i j hne
    obtain ⟨tg, si, bo, hf, rfl⟩ := update_some hu
    have hsi : si < 2 ^ s := by
      rw [(address_fields_some hf).2.2.2.1]
      exact hlt
    have hin : ∀ k l, (update_body E t v tg si bo σ).cache = setLine σ.cache si k l → k < E →
        i < 2 ^ s ∧ j < E := by
      intro k l hc hk
      by_cases hij : i = si ∧ j = k
      · rw [hij.1, hij.2]
        exact ⟨hsi, hk⟩
      · rw [hc, setLine_other _ _ _ _ _ _ hij] at hne
        exact absurd rfl hne
    rcases update_body_eff E t v tg si bo σ with ⟨k, hk, _, hc, _⟩ | ⟨k, hk, _, hc, _⟩ | ⟨_, hc, _⟩
    · exact hin k _ hc hk
    · exact hin k _ hc hk
    · exact hin _ _ hc (victim_lt E _ (by omega))

theorem C20_line_indices_in_bounds_witness :
    (∃ si, set_index_field 2 4 0x1234 = some si ∧ si < 2 ^ 2 ∧ 2 ^ 2 ≤ 2147483647 ∧
      ∀ tg si' bo, address_fields 2 4 0x1234 = some (tg, si', bo) → si' = si) ∧
    (∀ (row : Nat → cache_line) (tg : Nat),
      (∀ i, firstIdx (hitTest row tg) 2 0 = some i → i < 2) ∧
      (∀ i, firstIdx (freeTest row) 2 0 = some i → i < 2) ∧
      victim 2 row < 2) ∧
    (∀ (row row' : Nat → cache_line) (tg : Nat), (∀ j, j < 2 → row j = row' j) →
      firstIdx (hitTest row tg) 2 0 = firstIdx (hitTest row' tg) 2 0 ∧
      firstIdx (freeTest row) 2 0 = firstIdx (freeTest row') 2 0 ∧
      victim 2 row = victim 2 row') ∧
    (∀ t v σ σ', update 2 4 2 t v 0x1234 σ = some σ' →
      ∀ i j, σ'.cache i j ≠ σ.cache i j → i < 2 ^ 2 ∧ j < 2) :=
  C20_line_indices_in_bounds 2 4 2 0x1234 (by decide) (by decide) (by decide)

/-! ## When a repeated access hits -/

/-- On a well-typed state with valid bits 0 or 1, in a geometry with `E ≥ 1`
where the fields `(tg, si, bo)` of the address are defined: after a call of
`update` that found no valid way holding `tg`, the same access made again is
counted as a hit exactly when `tg` is below `2 ^ 31`. -/
theorem repeat_after_miss_hits_iff (s b E : Nat) (t t' v : Int) (address : Nat) (σ : Sim)
    (tg si bo : Nat) (hf : address_fields s b address = some (tg, si, bo))
    (hE : 0 < E) (hty : wellTyped σ.cache) (hb : boolV σ.cache)
    (hmiss : ∀ j, j < E → ¬ ((σ.cache si j).v = 1 ∧ (σ.cache si j).tag = (tg : Int))) :
    ∃ σ1 σ2, update s b E t v address σ = some σ1 ∧ update s b E t' v address σ1 = some σ2 ∧
      σ1.miss_count = σ.miss_count + 1 ∧
      (σ2.hit_count = σ1.hit_count + 1 ↔ tg < 2 ^ 31) := by
  have hn := address_fields_tag_lt hf
  have hnone : firstIdx (hitTest (σ.cache si) tg) E 0 = none := by
    apply firstIdx_of_none
    intro j _ hj
    rw [hitTest_false_iff, toU64_eq_iff _ _ (hty si j).2.1 hn]
    exact hmiss j (by omega)
  -- the line the first call writes
  have hw : ∃ k l, k < E ∧ l.v = 1 ∧ l.tag = toInt32 tg ∧
      (update_body E t v tg si bo σ).cache = setLine σ.cache si k l ∧
      (update_body E t v tg si bo σ).miss_count = σ.miss_count + 1 := by
    cases hff : firstIdx (freeTest (σ.cache si)) E 0 with
    | some k =>
      obtain ⟨hc, _, hm, _⟩ := update_body_fill t v bo hnone hff
      have := (firstIdx_some hff).2.1
      exact ⟨k, _, by omega, rfl, rfl, hc, hm⟩
    | none =>
      obtain ⟨hc, _, hm, _⟩ := update_body_evict t v bo hnone hff
      have hk := victim_lt E (σ.cache si) hE
      refine ⟨_, _, hk, ?_, rfl, hc, hm⟩
      have h0 := (freeTest_false_iff _ _).1 (firstIdx_none hff _ (Nat.zero_le _) (by omega : victim E (σ.cache si) < 0 + E))
      rcases hb si (victim E (σ.cache si)) with h | h
      · exact absurd h h0
      · exact h
  obtain ⟨k, l, hk, hlv, hlt, hc, hm⟩ := hw
  have hrow : ∀ j, j ≠ k → (update_body E t v tg si bo σ).cache si j = σ.cache si j := by
    intro j hj
    rw [hc, setLine_other _ _ _ _ _ _ (fun h => hj h.2)]
  have hrowk : (update_body E t v tg si bo σ).cache si k = l := by
    rw [hc, setLine_same]
  refine ⟨_, _, update_of_fields hf E t v σ, update_of_fields hf E t' v _, hm, ?_⟩
  cases hfi2 : firstIdx (hitTest ((update_body E t v tg si bo σ).cache si) tg) E 0 with
  | some j =>
    obtain ⟨_, hh, _, _⟩ := update_body_hit t' v bo hfi2
    refine ⟨fun _ => ?_, fun _ => hh⟩
    obtain ⟨_, hjE, hp, _⟩ := firstIdx_some hfi2
    rw [hitTest_iff] at hp
    by_cases hjk : j = k
    · rw [hjk, hrowk, hlt] at hp
      exact (toU64_toInt32_iff tg hn).1 hp.2
    · rw [hrow j hjk] at hp
      have := firstIdx_none hnone j (Nat.zero_le _) hjE
      rw [hitTest_false_iff] at this
      exact absurd hp this
  | none =>
    have hh : (update_body E t' v tg si bo (update_body E t v tg si bo σ)).hit_count
        = (update_body E t v tg si bo σ).hit_count := by
      cases hff : firstIdx (freeTest ((update_body E t v tg si bo σ).cache si)) E 0 with
      | some i => exact (update_body_fill t' v bo hfi2 hff).2.1
      | none => exact (update_body_evict t' v bo hfi2 hff).2.1
    refine ⟨fun h => ?_, fun h => ?_⟩
    · rw [hh] at h
      omega
    · have := firstIdx_none hfi2 k (Nat.zero_le _) (by omega)
      rw [hitTest_false_iff, hrowk, hlv, hlt] at this
      exact absurd ⟨rfl, (toU64_toInt32_iff tg hn).2 h⟩ this

/-! ## The counters from one trace line to the next (claim C10) -/

/-- A run that returns on a trace followed by one more line returns on the
trace, with no counter above its value after the further line. -/
theorem run_before_last {s E b : Nat} {v : Int} {t : List TraceLine} {l : TraceLine}
    {r' : Sim} (hr : run s E b (t ++ [l]) v 0 0 0 = some r') :
    ∃ r, run s E b t v 0 0 0 = some r ∧ r.hit_count ≤ r'.hit_count ∧
      r.miss_count ≤ r'.miss_count ∧ r.eviction_count ≤ r'.eviction_count := by
  obtain ⟨h1, h2, st', hl, rfl, b1, b2, b3, b4⟩ := run_some hr
  rw [runLoop_append] at hl
  cases hp : runLoop s E b v t { sim := initSim 0 0 0, inst_index := 0 } with
  | none =>
    rw [hp] at hl
    simp at hl
  | some st =>
    rw [hp, Option.some_bind] at hl
    have hc := step_counts_of_some hl
    have hi := (step_some hl).1
    unfold countsAfter at hc
    have ha := accesses_append t l
    have hb := accessesOf_bounds l
    have hn := accesses_bounds t
    refine ⟨st.sim, run_of_loop h1 (fun hE => ?_) hp ⟨?_, ?_, ?_, ?_⟩, hc.2.1, hc.2.2.1,
      hc.2.2.2.1⟩
    · have := h2 hE
      omega
    all_goals omega

/-- C10, amended: for every geometry, every trace `t` and every further line
`l`, run from the initialised cache with zero counters: a run that returns on
`t` followed by `l` returns on `t`, and none of hits, misses and evictions is
smaller after `l` than before it; whenever the run returns on `t`, at the end
hits + misses is the number of accesses dispatched (a load or store 1, a
modify 2, anything else 0); and the run returns in every geometry with
`s ≤ 30`, `E ≥ 1` and `0 < s + b < 64` on every trace of fewer than `2 ^ 30`
lines. -/
theorem C10_counters_monotone_hits_plus_misses (s E b : Nat) (v : Int) (t : List TraceLine)
    (l : TraceLine) :
    (∀ r', run s E b (t ++ [l]) v 0 0 0 = some r' →
      ∃ r, run s E b t v 0 0 0 = some r ∧ r.hit_count ≤ r'.hit_count ∧
        r.miss_count ≤ r'.miss_count ∧ r.eviction_count ≤ r'.eviction_count) ∧
    (∀ r, run s E b t v 0 0 0 = some r →
      r.hit_count + r.miss_count = accesses t ∧
      0 ≤ r.hit_count ∧ 0 ≤ r.miss_count ∧ 0 ≤ r.eviction_count) ∧
    (s ≤ 30 → 1 ≤ E → 0 < s + b → s + b < 64 → t.length ≤ 1073741823 →
      ∃ r, run s E b t v 0 0 0 = some r) := by
  refine ⟨fun r' hr => run_before_last hr, fun r hr => ?_,
    fun hs hE h0 h1 hlen => run_returns s E b t v hs hE h0 h1 hlen⟩
  obtain ⟨_, _, st, hl, rfl, _⟩ := run_some hr
  have hc := runLoop_counts_of_some t hl
  unfold countsAfter at hc
  simp only [initSim] at hc
  omega

theorem C10_counters_monotone_hits_plus_misses_witness :
    ∃ r r', run 0 1 4 threeLoads 0 0 0 0 = some r ∧
      run 0 1 4 (threeLoads ++ [⟨'M', 0, 1⟩]) 0 0 0 0 = some r' ∧
      r.hit_count ≤ r'.hit_count ∧ r.miss_count ≤ r'.miss_count ∧
      r.eviction_count ≤ r'.eviction_count ∧
      r.hit_count + r.miss_count = accesses threeLoads := by
  obtain ⟨_, _, h3⟩ := C10_counters_monotone_hits_plus_misses 0 1 4 0
    (threeLoads ++ [⟨'M', 0, 1⟩]) ⟨'I', 0, 1⟩
  obtain ⟨r', hr'⟩ := h3 (by decide) (by decide) (by decide) (by decide) (by decide)
  obtain ⟨h1, h2, _⟩ := C10_counters_monotone_hits_plus_misses 0 1 4 0 threeLoads ⟨'M', 0, 1⟩
  obtain ⟨r, hr, m1, m2, m3⟩ := h1 r' hr'
  exact ⟨r, r', hr, hr', m1, m2, m3, (h2 r hr).1⟩

end Csim
